import Mathlib

/-!
FT_IRC: channel membership model, client record, utilities and echo server

A shallow embedding of `Channel` (src/Channel.cpp, src/Channel.hpp), of the
`Client` record it points to (src/Client.cpp, src/Client.hpp), of the helpers of
`Utils` (src/Utils.cpp) and of the echo server (src/test_code/Server.cpp),
followed by the properties proved about them.

Conventions.
* A `std::string` is a Lean `String`; one character stands for one byte.
* A `Client*` is an address (`ClientPtr`), `NULL` being address 0; the objects
  behind the addresses live in a `Heap`, and dereferencing an address that has
  no object makes the embedded function return `none`.
* A `std::vector<Client*>` is a `List ClientPtr`, oldest element first; an
  iterator is a position in the list, `end()` being the length.
* `size_t` values are natural numbers; the channel code does no arithmetic on
  them, so no wrap-around can occur.
-/

namespace FtIrc

/-! ## Data model -/

/-- The value of a `Client*`. -/
abbrev ClientPtr := Nat

/-- The null pointer. -/
def NULL : ClientPtr := 0

/-- The private members of `class Client` (src/Client.hpp). -/
structure Client where
  _fd : Int
  _nickname : String
  _username : String
  _realname : String
  _hostname : String
  _buffer : String
  _authenticated : Bool
  _registered : Bool
  _welcomeSent : Bool
  deriving DecidableEq, Repr

/-- The client objects that exist, by address. -/
abbrev Heap := ClientPtr → Option Client

/-- The private members of `class Channel` (src/Channel.hpp). -/
structure Channel where
  _name : String
  _topic : String
  _key : String
  _clients : List ClientPtr
  _operators : List ClientPtr
  _invited : List ClientPtr
  _inviteOnly : Bool
  _topicRestricted : Bool
  _hasKey : Bool
  _hasUserLimit : Bool
  _userLimit : Nat
  deriving DecidableEq, Repr

/-- Embeds `std::find(v.begin(), v.end(), x)`: the position of the first element equal
to `x`, or `v.size()` (the `end()` iterator) when there is none. -/
def stdFind : List ClientPtr → ClientPtr → Nat
  | [], _ => 0
  | y :: ys, x => if y = x then 0 else stdFind ys x + 1

/-- Embeds `v.erase(it)` for an iterator `it` that is not `end()`. -/
def vecErase (v : List ClientPtr) (it : Nat) : List ClientPtr :=
  v.eraseIdx it

/-- Embeds `v.push_back(x)`. -/
def pushBack (v : List ClientPtr) (x : ClientPtr) : List ClientPtr :=
  v ++ [x]

namespace Channel

/-! ## Channel operations (src/Channel.cpp) -/

/-- Embeds `Channel::Channel(name)`: every mode is off, the limit is 0, the strings and
vectors are default-constructed (empty). -/
def ctor (name : String) : Channel :=
  { _name := name, _topic := "", _key := "", _clients := [], _operators := [],
    _invited := [], _inviteOnly := false, _topicRestricted := false,
    _hasKey := false, _hasUserLimit := false, _userLimit := 0 }

def getName (s : Channel) : String := s._name

def getTopic (s : Channel) : String := s._topic

def getKey (s : Channel) : String := s._key

def getClients (s : Channel) : List ClientPtr := s._clients

def getOperators (s : Channel) : List ClientPtr := s._operators

def getUserLimit (s : Channel) : Nat := s._userLimit

def isInviteOnly (s : Channel) : Bool := s._inviteOnly

def isTopicRestricted (s : Channel) : Bool := s._topicRestricted

def hasKey (s : Channel) : Bool := s._hasKey

def hasUserLimit (s : Channel) : Bool := s._hasUserLimit

/-- Embeds `Channel::hasClient`: `std::find(...) != _clients.end()`. -/
def hasClient (s : Channel) (client : ClientPtr) : Bool :=
  stdFind s._clients client != s._clients.length

/-- Embeds `Channel::getClientCount`. -/
def getClientCount (s : Channel) : Nat := s._clients.length

/-- Embeds `Channel::isOperator`. -/
def isOperator (s : Channel) (client : ClientPtr) : Bool :=
  stdFind s._operators client != s._operators.length

/-- Embeds `Channel::isInvited`. -/
def isInvited (s : Channel) (client : ClientPtr) : Bool :=
  stdFind s._invited client != s._invited.length

/-- Embeds `Channel::addOperator`. -/
def addOperator (s : Channel) (client : ClientPtr) : Channel :=
  if !isOperator s client then
    { s with _operators := pushBack s._operators client }
  else s

/-- Embeds `Channel::removeOperator`. -/
def removeOperator (s : Channel) (client : ClientPtr) : Channel :=
  let it := stdFind s._operators client
  if it != s._operators.length then
    { s with _operators := vecErase s._operators it }
  else s

/-- Embeds `Channel::addInvited`. -/
def addInvited (s : Channel) (client : ClientPtr) : Channel :=
  if !isInvited s client then
    { s with _invited := pushBack s._invited client }
  else s

/-- Embeds `Channel::removeInvited`. -/
def removeInvited (s : Channel) (client : ClientPtr) : Channel :=
  let it := stdFind s._invited client
  if it != s._invited.length then
    { s with _invited := vecErase s._invited it }
  else s

/-- Embeds `Channel::addClient`: append a client that is not yet a member; when the
vector then has exactly one element, make that client an operator. -/
def addClient (s : Channel) (client : ClientPtr) : Channel :=
  if !hasClient s client then
    let s1 := { s with _clients := pushBack s._clients client }
    if s1._clients.length == 1 then addOperator s1 client else s1
  else s

/-- Embeds `Channel::removeClient`: erase the first occurrence from the member vector,
then call `removeOperator` and `removeInvited`. -/
def removeClient (s : Channel) (client : ClientPtr) : Channel :=
  let it := stdFind s._clients client
  let s1 := if it != s._clients.length then
      { s with _clients := vecErase s._clients it }
    else s
  removeInvited (removeOperator s1 client) client

/-- Embeds `Channel::setTopic`. -/
def setTopic (s : Channel) (topic : String) : Channel :=
  { s with _topic := topic }

/-- Embeds `Channel::setKey`. -/
def setKey (s : Channel) (key : String) : Channel :=
  { s with _key := key, _hasKey := true }

/-- Embeds `Channel::removeKey`. -/
def removeKey (s : Channel) : Channel :=
  { s with _key := "", _hasKey := false }

/-- Embeds `Channel::setUserLimit`. -/
def setUserLimit (s : Channel) (limit : Nat) : Channel :=
  { s with _userLimit := limit, _hasUserLimit := true }

/-- Embeds `Channel::removeUserLimit`. -/
def removeUserLimit (s : Channel) : Channel :=
  { s with _userLimit := 0, _hasUserLimit := false }

/-- Embeds `Channel::setInviteOnly`. -/
def setInviteOnly (s : Channel) (inviteOnly : Bool) : Channel :=
  { s with _inviteOnly := inviteOnly }

/-- Embeds `Channel::setTopicRestricted`. -/
def setTopicRestricted (s : Channel) (restricted : Bool) : Channel :=
  { s with _topicRestricted := restricted }

/-- Embeds `Channel::getModeString`: start from "+", append one letter per set flag,
and return the empty string when nothing was appended. -/
def getModeString (s : Channel) : String :=
  let modes := "+"
  let modes := if s._inviteOnly then modes ++ "i" else modes
  let modes := if s._topicRestricted then modes ++ "t" else modes
  let modes := if s._hasKey then modes ++ "k" else modes
  let modes := if s._hasUserLimit then modes ++ "l" else modes
  if modes == "+" then "" else modes

/-- The loop of `Channel::getUserList` from index `i` on: `rest` is what is left
of `_clients` at index `i`, `userList` the string built so far. The result is
`none` when a member's address has no client object behind it. -/
def getUserListFrom (h : Heap) (s : Channel) :
    List ClientPtr → Nat → String → Option String
  | [], _, userList => some userList
  | c :: rest, i, userList =>
    let userList := if i > 0 then userList ++ " " else userList
    let userList := if isOperator s c then userList ++ "@" else userList
    match h c with
    | none => none
    | some obj => getUserListFrom h s rest (i + 1) (userList ++ obj._nickname)

/-- Embeds `Channel::getUserList`. -/
def getUserList (h : Heap) (s : Channel) : Option String :=
  getUserListFrom h s s._clients 0 ""

end Channel

/-! ## Delivery (src/Utils.cpp, src/Channel.cpp) -/

/-- What the outside world has seen of the delivery subsystem.
`calls` lists the invocations of `Utils::sendToClient` (recipient, message),
`wire` the `send` system calls issued (descriptor, bytes), both oldest first. -/
structure World where
  calls : List (ClientPtr × String)
  wire : List (Int × String)
  deriving DecidableEq, Repr

/-- Embeds `Utils::sendToClient`. The return value of the `n`-th `send` system call is
`sys n`: a negative number for an error, else the number of bytes sent. The
diagnostics written to `std::cerr` are not modelled. -/
def sendToClient (sys : Nat → Int) (h : Heap) (w : World) (client : ClientPtr)
    (message : String) : Option (Bool × World) :=
  let w := { w with calls := w.calls ++ [(client, message)] }
  if client = NULL then some (false, w)
  else
    let fullMessage := message ++ "\r\n"
    match h client with
    | none => none
    | some obj =>
      let bytesSent := sys w.wire.length
      let w := { w with wire := w.wire ++ [(obj._fd, fullMessage)] }
      if bytesSent < 0 then some (false, w)
      else if bytesSent.toNat != fullMessage.length then some (false, w)
      else some (true, w)

/-- The loop of `Channel::broadcast` over what is left of `_clients`; the value
returned by `sendToClient` is discarded, as in the source. -/
def broadcastFrom (sys : Nat → Int) (h : Heap) (message : String)
    (exclude : ClientPtr) : List ClientPtr → World → Option World
  | [], w => some w
  | c :: rest, w =>
    if c != exclude then
      match sendToClient sys h w c message with
      | none => none
      | some (_, w1) => broadcastFrom sys h message exclude rest w1
    else broadcastFrom sys h message exclude rest w

/-- Embeds `Channel::broadcast`. -/
def Channel.broadcast (sys : Nat → Int) (h : Heap) (w : World) (s : Channel)
    (message : String) (exclude : ClientPtr) : Option World :=
  broadcastFrom sys h message exclude s._clients w

/-! ## Reachable channel states -/

/-- A call of one of the public mutators of `Channel`. -/
inductive Op where
  | addClient (client : ClientPtr)
  | removeClient (client : ClientPtr)
  | addOperator (client : ClientPtr)
  | removeOperator (client : ClientPtr)
  | addInvited (client : ClientPtr)
  | removeInvited (client : ClientPtr)
  | setTopic (topic : String)
  | setKey (key : String)
  | removeKey
  | setUserLimit (limit : Nat)
  | removeUserLimit
  | setInviteOnly (inviteOnly : Bool)
  | setTopicRestricted (restricted : Bool)
  deriving DecidableEq, Repr

namespace Channel

/-- The effect of one call on the channel. -/
def step (s : Channel) : Op → Channel
  | .addClient c => addClient s c
  | .removeClient c => removeClient s c
  | .addOperator c => addOperator s c
  | .removeOperator c => removeOperator s c
  | .addInvited c => addInvited s c
  | .removeInvited c => removeInvited s c
  | .setTopic t => setTopic s t
  | .setKey k => setKey s k
  | .removeKey => removeKey s
  | .setUserLimit n => setUserLimit s n
  | .removeUserLimit => removeUserLimit s
  | .setInviteOnly b => setInviteOnly s b
  | .setTopicRestricted b => setTopicRestricted s b

/-- The effect of a sequence of calls, first call first. -/
def run (s : Channel) : List Op → Channel
  | [] => s
  | op :: ops => run (step s op) ops

/-- A state is reachable when some sequence of public mutator calls leads to it
from a freshly constructed channel. -/
def Reachable (s : Channel) : Prop :=
  ∃ (name : String) (ops : List Op), s = run (ctor name) ops

/-- A call respects membership when it is not an `addOperator` for a client that
is not a member at the time of the call. -/
def respectsMembership (s : Channel) : Op → Bool
  | .addOperator c => hasClient s c
  | _ => true

/-- Every call of the sequence respects membership in the state it is made in. -/
def allRespectMembership (s : Channel) : List Op → Bool
  | [] => true
  | op :: ops => respectsMembership s op && allRespectMembership (step s op) ops

/-- Reachable by calls that promote members only. -/
def ReachablePromotingMembers (s : Channel) : Prop :=
  ∃ (name : String) (ops : List Op),
    allRespectMembership (ctor name) ops = true ∧ s = run (ctor name) ops

/-- Every member points to a client object. -/
def membersLive (h : Heap) (s : Channel) : Prop :=
  ∀ c ∈ s._clients, (h c).isSome = true

/-- Every member that `broadcast` hands to `send` points to a client object:
the members other than `exclude` and other than `NULL`. -/
def recipientsLive (h : Heap) (s : Channel) (exclude : ClientPtr) : Prop :=
  ∀ c ∈ s._clients, c ≠ exclude → c ≠ NULL → (h c).isSome = true

/-- The nickname behind an address (empty when there is no object). -/
def nickOf (h : Heap) (c : ClientPtr) : String :=
  match h c with
  | none => ""
  | some obj => obj._nickname

/-- One entry of the names list as the specification words it: the nickname,
with the operator marker in front when the member is an operator. -/
def namesEntry (h : Heap) (s : Channel) (c : ClientPtr) : String :=
  (if isOperator s c then "@" else "") ++ nickOf h c

end Channel

/-! ## Concrete states used as examples -/

/-- A heap with three clients: alice at 1, bob at 2, carol at 3. -/
def demoHeap : Heap := fun p =>
  if p = 1 then some ⟨4, "alice", "a", "Alice", "host1", "", true, true, true⟩
  else if p = 2 then some ⟨5, "bob", "b", "Bob", "host2", "", true, true, true⟩
  else if p = 3 then some ⟨6, "carol", "c", "Carol", "host3", "", true, true, true⟩
  else none

/-- Alice creates the channel, bob and carol join, carol holds an invitation. -/
def demoChannel : Channel :=
  Channel.run (Channel.ctor "#lounge")
    [.addClient 1, .addInvited 3, .addClient 2, .addClient 3, .setTopicRestricted true]

namespace Channel

/-- No client is listed twice in the member, operator or invite vector. -/
def noDuplicates (s : Channel) : Prop :=
  s._clients.Nodup ∧ s._operators.Nodup ∧ s._invited.Nodup

/-- Every listed operator is also listed as a member. -/
def operatorsAreMembers (s : Channel) : Prop :=
  ∀ c ∈ s._operators, c ∈ s._clients

end Channel

/-- A fresh channel on which `addOperator(7)` was called before anyone joined. -/
def staleOperatorChannel : Channel :=
  Channel.run (Channel.ctor "#c") [.addOperator 7]

namespace Channel

/-- The four mode flags in rendering order, each with its letter. -/
def modeFlags (s : Channel) : List (Bool × String) :=
  [(s._inviteOnly, "i"), (s._topicRestricted, "t"), (s._hasKey, "k"), (s._hasUserLimit, "l")]

/-- The letters of the flags that are set, in rendering order. -/
def setFlagLetters (s : Channel) : String :=
  String.join (((modeFlags s).filter (fun p => p.1)).map (fun p => p.2))

/-- Clearing all four modes with the clearing calls of the class. -/
def clearAllModes (s : Channel) : Channel :=
  removeUserLimit (removeKey (setTopicRestricted (setInviteOnly s false) false))

/-- Setting a subset of the four modes with the setting calls of the class:
`setInviteOnly(true)` when `inviteOnly`, `setTopicRestricted(true)` when
`topicRestricted`, `setKey(k)` when a key `k` is given, `setUserLimit(n)` when a
limit `n` is given. -/
def setModes (s : Channel) (inviteOnly topicRestricted : Bool) (key : Option String)
    (limit : Option Nat) : Channel :=
  let s := if inviteOnly then setInviteOnly s true else s
  let s := if topicRestricted then setTopicRestricted s true else s
  let s := match key with
    | some k => setKey s k
    | none => s
  match limit with
  | some n => setUserLimit s n
  | none => s

/-- The mode string the specification expects for a subset of the modes: empty
for the empty subset, else "+" and the letters of the subset in the order
i, t, k, l. -/
def expectedModeString (inviteOnly topicRestricted hasKey hasUserLimit : Bool) : String :=
  if inviteOnly = false ∧ topicRestricted = false ∧ hasKey = false ∧ hasUserLimit = false
  then ""
  else "+" ++ (if inviteOnly then "i" else "") ++ (if topicRestricted then "t" else "") ++
    (if hasKey then "k" else "") ++ (if hasUserLimit then "l" else "")

end Channel

namespace Channel

/-- The members a broadcast is addressed to: every member other than `exclude`,
in membership order. -/
def recipients (s : Channel) (exclude : ClientPtr) : List ClientPtr :=
  s._clients.filter (fun c => c != exclude)

end Channel

/-- The descriptor behind an address (0 when there is no object). -/
def fdOf (h : Heap) (c : ClientPtr) : Int :=
  match h c with
  | none => 0
  | some obj => obj._fd

/-- The "#solo" scenario: user limit 1 is set and client 1 has joined. -/
def fullSoloChannel : Channel :=
  Channel.run (Channel.ctor "#solo") [.setUserLimit 1, .addClient 1]

/-- An invite-only channel with alice (1) inside and an invitation for 5. -/
def invitingChannel : Channel :=
  Channel.run (Channel.ctor "#club") [.addClient 1, .setInviteOnly true, .addInvited 5]

/-! ## Client operations (src/Client.cpp) -/

namespace Client

/-- Embeds `Client::Client(fd, hostname)`: the three flags are false and the
strings that are not initialised explicitly are default-constructed (empty). -/
def ctor (fd : Int) (hostname : String) : Client :=
  { _fd := fd, _nickname := "", _username := "", _realname := "", _hostname := hostname,
    _buffer := "", _authenticated := false, _registered := false, _welcomeSent := false }

def getFd (c : Client) : Int := c._fd

def getNickname (c : Client) : String := c._nickname

def getUsername (c : Client) : String := c._username

def getRealname (c : Client) : String := c._realname

def getHostname (c : Client) : String := c._hostname

def getBuffer (c : Client) : String := c._buffer

def isAuthenticated (c : Client) : Bool := c._authenticated

def isRegistered (c : Client) : Bool := c._registered

def isWelcomeSent (c : Client) : Bool := c._welcomeSent

def setNickname (c : Client) (nickname : String) : Client :=
  { c with _nickname := nickname }

def setUsername (c : Client) (username : String) : Client :=
  { c with _username := username }

def setRealname (c : Client) (realname : String) : Client :=
  { c with _realname := realname }

def setAuthenticated (c : Client) (auth : Bool) : Client :=
  { c with _authenticated := auth }

def setRegistered (c : Client) (reg : Bool) : Client :=
  { c with _registered := reg }

def setWelcomeSent (c : Client) (sent : Bool) : Client :=
  { c with _welcomeSent := sent }

/-- Embeds `Client::appendToBuffer`: `_buffer += data`. -/
def appendToBuffer (c : Client) (data : String) : Client :=
  { c with _buffer := c._buffer ++ data }

/-- Embeds `Client::clearBuffer`. -/
def clearBuffer (c : Client) : Client :=
  { c with _buffer := "" }

/-- Embeds `Client::getPrefix`. -/
def getPrefix (c : Client) : String :=
  c._nickname ++ "!" ++ c._username ++ "@" ++ c._hostname

end Client

/-- A call of one of the setters or buffer operations of `Client`. -/
inductive ClientOp where
  | setNickname (nickname : String)
  | setUsername (username : String)
  | setRealname (realname : String)
  | setAuthenticated (auth : Bool)
  | setRegistered (reg : Bool)
  | setWelcomeSent (sent : Bool)
  | appendToBuffer (data : String)
  | clearBuffer
  deriving DecidableEq, Repr

namespace Client

/-- The effect of one call on the client. -/
def step (c : Client) : ClientOp → Client
  | .setNickname n => setNickname c n
  | .setUsername u => setUsername c u
  | .setRealname r => setRealname c r
  | .setAuthenticated b => setAuthenticated c b
  | .setRegistered b => setRegistered c b
  | .setWelcomeSent b => setWelcomeSent c b
  | .appendToBuffer d => appendToBuffer c d
  | .clearBuffer => clearBuffer c

/-- The effect of a sequence of calls, first call first. -/
def run (c : Client) : List ClientOp → Client
  | [] => c
  | op :: ops => run (step c op) ops

/-- Calling `appendToBuffer` on each chunk in turn. -/
def appendChunks (c : Client) : List String → Client
  | [] => c
  | chunk :: chunks => appendChunks (appendToBuffer c chunk) chunks

end Client

/-- The bytes of a stream that was cut into consecutive chunks. -/
def joinChunks : List String → String
  | [] => ""
  | chunk :: chunks => chunk ++ joinChunks chunks

/-! ## Utilities (src/Utils.cpp) -/

namespace Utils

/-- The test on one character in the loop of `Utils::isValidNickname`: letters,
digits and the nine listed symbols pass. -/
def nicknameCharOk (c : Char) : Bool :=
  (c ≥ 'a' && c ≤ 'z') || (c ≥ 'A' && c ≤ 'Z') ||
    (c ≥ '0' && c ≤ '9') || c == '_' || c == '-' || c == '[' ||
    c == ']' || c == Char.ofNat 123 || c == Char.ofNat 125 || c == '\\' ||
    c == Char.ofNat 96 || c == '|'

/-- The loop of `Utils::isValidNickname` over the characters from index 1 on. -/
def nicknameLoop : List Char → Bool
  | [] => true
  | c :: rest => if !nicknameCharOk c then false else nicknameLoop rest

/-- Embeds `Utils::isValidNickname`. -/
def isValidNickname (nickname : String) : Bool :=
  if nickname.data.isEmpty || nickname.data.length > 30 then false
  else
    match nickname.data with
    | [] => false
    | first :: rest =>
      if !((first ≥ 'a' && first ≤ 'z') || (first ≥ 'A' && first ≤ 'Z')) then false
      else nicknameLoop rest

/-- The loop of `Utils::isValidChannelName` over the characters from index 1 on. -/
def channelNameLoop : List Char → Bool
  | [] => true
  | c :: rest =>
    if c == ' ' || c == ',' || c == '\r' || c == '\n' || c == Char.ofNat 0 then false
    else channelNameLoop rest

/-- Embeds `Utils::isValidChannelName`. -/
def isValidChannelName (channelName : String) : Bool :=
  match channelName.data with
  | [] => false
  | first :: rest =>
    if first != '#' || channelName.data.length < 2 then false
    else channelNameLoop rest

/-- The character of a decimal digit. -/
def digitChar (d : Nat) : Char := Char.ofNat (48 + d)

/-- The decimal digits of `n`, most significant first, computed with at most
`fuel` divisions by ten. -/
def decimalDigits : Nat → Nat → List Char
  | 0, _ => []
  | fuel + 1, n =>
    if n < 10 then [digitChar n]
    else decimalDigits fuel (n / 10) ++ [digitChar (n % 10)]

/-- The decimal numeral of a natural number, without leading zeros. -/
def decimal (n : Nat) : List Char := decimalDigits (n + 1) n

/-- Embeds `stream << value` for an `int` on a stream whose fill character is
`fill` and whose field width is `width`, with the default right adjustment: the
numeral, with a minus sign when negative, preceded by fill characters up to the
width. -/
def streamInt (fill : Char) (width : Nat) (value : Int) : String :=
  let text := if value < 0 then '-' :: decimal value.natAbs else decimal value.natAbs
  String.mk (List.replicate (width - text.length) fill ++ text)

/-- Embeds `Utils::formatReply(serverName, code, target, message)`; `setw(3)`
applies to the next insertion only, which is the code. -/
def formatReply (serverName : String) (code : Int) (target : String)
    (message : String) : String :=
  ":" ++ serverName ++ " " ++ streamInt '0' 3 code ++ " " ++ target ++ " " ++ message

end Utils

/-- An ASCII letter. -/
def asciiLetter (c : Char) : Prop :=
  (97 ≤ c.toNat ∧ c.toNat ≤ 122) ∨ (65 ≤ c.toNat ∧ c.toNat ≤ 90)

/-- A decimal digit. -/
def asciiDigit (c : Char) : Prop := 48 ≤ c.toNat ∧ c.toNat ≤ 57

/-- The symbols a nickname may contain after its first character:
underscore, hyphen, the square and curly brackets, backslash, backquote, bar. -/
def nicknameSymbols : List Char :=
  ['_', '-', '[', ']', Char.ofNat 123, Char.ofNat 125, '\\', Char.ofNat 96, '|']

/-- A control character: a byte below 0x20, or 0x7F. -/
def controlChar (c : Char) : Prop := c.toNat < 0x20 ∨ c.toNat = 0x7F

/-- A code between 0 and 999 written with exactly three decimal digits. -/
def threeDigits (n : Nat) : String :=
  String.mk [Utils.digitChar (n / 100), Utils.digitChar (n / 10 % 10), Utils.digitChar (n % 10)]

/-! ## Echo server (src/test_code/Server.hpp, src/test_code/Server.cpp)

The `_address` member and what is written to `std::cout` and `std::cerr` are
left out; a call of `exit` and an access outside a vector make the embedded
function return `none`. -/

/-- The `POLLIN` bit of `<poll.h>`. -/
def POLLIN : Nat := 1

/-- The members of `struct pollfd`. -/
structure PollFd where
  fd : Int
  events : Nat
  revents : Nat
  deriving DecidableEq, Repr

/-- The private members of `class Server` (without `_address`). -/
structure Server where
  _port : Int
  _password : String
  _server_fd : Int
  _poll_fds : List PollFd
  _client_buffers : List String
  deriving DecidableEq, Repr

/-- What one `recv` call gives: an error (-1), end of stream (0), or bytes. -/
inductive RecvResult where
  | error
  | closed
  | data (bytes : String)
  deriving DecidableEq, Repr

/-- The value `recv` returns. -/
def RecvResult.bytesReceived : RecvResult → Int
  | .error => -1
  | .closed => 0
  | .data bytes => bytes.length

/-- A system call with an effect outside the process. -/
inductive SysCall where
  | close (fd : Int)
  | send (fd : Int) (bytes : String)
  deriving DecidableEq, Repr

/-- The bytes a `char*` denotes: those before the first NUL. -/
def cString (bytes : String) : String :=
  String.mk (bytes.data.takeWhile (fun c => c != Char.ofNat 0))

namespace Server

/-- Embeds `Server::Server(port, password)`. -/
def ctor (port : Int) (password : String) : Server :=
  { _port := port, _password := password, _server_fd := -1, _poll_fds := [],
    _client_buffers := [] }

/-- Embeds `Server::acceptNewClient`: `client_fd` is what `accept` returned,
`fcntl` what `fcntl` returned, `revents` the value the uninitialised member of
the local `pollfd` happens to hold. -/
def acceptNewClient (client_fd : Int) (fcntl : Int) (revents : Nat) (s : Server) :
    Server × List SysCall :=
  if client_fd == -1 then (s, [])
  else if fcntl == -1 then (s, [SysCall.close client_fd])
  else
    let client_poll_fd : PollFd := { fd := client_fd, events := POLLIN, revents := revents }
    ({ s with _poll_fds := s._poll_fds ++ [client_poll_fd],
              _client_buffers := s._client_buffers ++ [""] }, [])

/-- Embeds `Server::handleClient(client_fd, index)`, `r` being what `recv` gave. -/
def handleClient (r : RecvResult) (s : Server) (client_fd : Int) (index : Nat) :
    Option (Server × List SysCall) :=
  let bytes_received := r.bytesReceived
  if bytes_received ≤ 0 then
    if index < s._poll_fds.length ∧ index < s._client_buffers.length then
      some ({ s with _poll_fds := s._poll_fds.eraseIdx index,
                     _client_buffers := s._client_buffers.eraseIdx index },
            [SysCall.close client_fd])
    else none
  else
    match r, s._client_buffers.get? index with
    | .data bytes, some old =>
      let buffered := old ++ cString bytes
      let response := "Server: " ++ buffered
      some ({ s with _client_buffers := s._client_buffers.set index "" },
            [SysCall.send client_fd response])
    | _, _ => none

/-- The return of `poll`: the kernel writes the `revents` of every entry. -/
def pollReturn (reported : List Nat) (s : Server) : Server :=
  { s with _poll_fds :=
      List.zipWith (fun (p : PollFd) (r : Nat) => { p with revents := r }) s._poll_fds reported }

end Server

/-- A call made by the loop of `Server::start` for a ready descriptor. -/
inductive Served where
  | listener
  | client (fd : Int) (index : Nat)
  deriving DecidableEq, Repr

/-- What the system calls made during one pass return; the calls are numbered
by how many descriptors the pass has served before. -/
structure PassResults where
  accept : Nat → Int
  fcntl : Nat → Int
  revents : Nat → Nat
  recv : Nat → RecvResult

/-- The server, the calls made for ready descriptors and the outside effects,
at some point of a pass. -/
structure PassState where
  server : Server
  served : List Served
  calls : List SysCall
  deriving DecidableEq, Repr

namespace Server

/-- The `for` loop of `Server::start` from index `i` on, for at most `fuel`
iterations (`none` when the fuel runs out or a vector is accessed outside its
bounds). -/
def forLoop (env : PassResults) : Nat → Nat → PassState → Option PassState
  | 0, _, _ => none
  | fuel + 1, i, st =>
    match st.server._poll_fds.get? i with
    | none => some st
    | some p =>
      if p.revents &&& POLLIN != 0 then
        let k := st.served.length
        if p.fd == st.server._server_fd then
          let (s1, cs) := acceptNewClient (env.accept k) (env.fcntl k) (env.revents k) st.server
          forLoop env fuel (i + 1)
            { server := s1, served := st.served ++ [Served.listener], calls := st.calls ++ cs }
        else
          match handleClient (env.recv k) st.server p.fd i with
          | none => none
          | some (s1, cs) =>
            forLoop env fuel (i + 1)
              { server := s1, served := st.served ++ [Served.client p.fd i],
                calls := st.calls ++ cs }
      else forLoop env fuel (i + 1) st

/-- One pass of the loop of `Server::start` over the watched descriptors, after
`poll` has returned. -/
def servePass (env : PassResults) (fuel : Nat) (s : Server) : Option PassState :=
  forLoop env fuel 0 { server := s, served := [], calls := [] }

end Server

/-- A listener on descriptor 3 and two clients on descriptors 4 and 5. -/
def threeSockets : Server :=
  { _port := 6667, _password := "pw", _server_fd := 3,
    _poll_fds := [⟨3, POLLIN, 0⟩, ⟨4, POLLIN, 0⟩, ⟨5, POLLIN, 0⟩],
    _client_buffers := ["", "", ""] }

/-- The state of `threeSockets` when `poll` reports both clients readable. -/
def bothClientsReady : Server :=
  Server.pollReturn [0, POLLIN, POLLIN] threeSockets

/-- A pass in which the first `recv` finds the peer gone and every later one
reads "hi". -/
def firstPeerGone : PassResults :=
  { accept := fun _ => -1, fcntl := fun _ => 0, revents := fun _ => 0,
    recv := fun k => if k = 0 then RecvResult.closed else RecvResult.data "hi" }

namespace Utils

/-- The loop of `Utils::toUpper`: each byte between 'a' and 'z' is replaced by
`byte - 'a' + 'A'`, the others are left as they are. -/
def toUpperLoop : List Char → List Char
  | [] => []
  | c :: rest =>
    (if c ≥ 'a' && c ≤ 'z' then Char.ofNat (c.toNat - ('a').toNat + ('A').toNat) else c)
      :: toUpperLoop rest

/-- Embeds `Utils::toUpper`. -/
def toUpper (str : String) : String := String.mk (toUpperLoop str.data)

/-- The loop of `Utils::toLower`: each byte between 'A' and 'Z' is replaced by
`byte - 'A' + 'a'`, the others are left as they are. -/
def toLowerLoop : List Char → List Char
  | [] => []
  | c :: rest =>
    (if c ≥ 'A' && c ≤ 'Z' then Char.ofNat (c.toNat - ('A').toNat + ('a').toNat) else c)
      :: toLowerLoop rest

/-- Embeds `Utils::toLower`. -/
def toLower (str : String) : String := String.mk (toLowerLoop str.data)

end Utils

/-- What `toUpper` does to one character. -/
def upperChar (c : Char) : Char :=
  if c ≥ 'a' && c ≤ 'z' then Char.ofNat (c.toNat - ('a').toNat + ('A').toNat) else c

/-- What `toLower` does to one character. -/
def lowerChar (c : Char) : Char :=
  if c ≥ 'A' && c ≤ 'Z' then Char.ofNat (c.toNat - ('A').toNat + ('a').toNat) else c

/-- Two characters that are equal, or are the two cases of one ASCII letter. -/
def sameLetter (c d : Char) : Prop :=
  c = d ∨ (asciiLetter c ∧ asciiLetter d ∧ (c.toNat + 32 = d.toNat ∨ d.toNat + 32 = c.toNat))

/-- Two strings of equal length that differ only in the case of ASCII letters. -/
def differOnlyInCase (s t : String) : Prop :=
  List.Forall₂ sameLetter s.data t.data

namespace Utils

/-- The characters `Utils::trim` removes: space, tab, carriage return, newline. -/
def trimSet : List Char := [' ', '\t', '\r', '\n']

/-- Embeds `str.find_first_not_of(set)`: the position of the first character
that is not in `set`; `none` stands for `npos`. -/
def findFirstNotOf (set : List Char) : List Char → Option Nat
  | [] => none
  | c :: rest =>
    if set.contains c then (findFirstNotOf set rest).map (fun i => i + 1) else some 0

/-- Embeds `str.find_last_not_of(set)`: the position of the last character
that is not in `set`; `none` stands for `npos`. -/
def findLastNotOf (set : List Char) : List Char → Option Nat
  | [] => none
  | c :: rest =>
    match findLastNotOf set rest with
    | some j => some (j + 1)
    | none => if set.contains c then none else some 0

/-- Embeds `str.substr(pos, n)` for a position inside the string. -/
def substr (str : List Char) (pos n : Nat) : List Char :=
  (str.drop pos).take n

/-- The body of `Utils::trim` on the characters of the string. When `start` is
a position, `end` is a position too and `start ≤ end`
(`findLastNotOf_of_decomposition`), so `end - start + 1` does not wrap around
and the branch for `end == npos` is never taken. -/
def trimChars (str : List Char) : List Char :=
  if str.isEmpty then str
  else
    match findFirstNotOf trimSet str with
    | none => []
    | some start =>
      match findLastNotOf trimSet str with
      | none => []
      | some end_ => substr str start (end_ - start + 1)

/-- Embeds `Utils::trim`. -/
def trim (str : String) : String := String.mk (trimChars str.data)

end Utils

namespace Utils

/-- Embeds `std::getline(ss, item, delimiter)`, `ss` being the characters of
the stream not read yet: `none` when the extraction fails because nothing is
left to read, otherwise the item (the characters before the first delimiter)
and the characters left unread (those after that delimiter). -/
def getline (delimiter : Char) (ss : List Char) : Option (List Char × List Char) :=
  match ss with
  | [] => none
  | _ :: _ =>
    some (ss.takeWhile (fun c => c != delimiter),
      (ss.dropWhile (fun c => c != delimiter)).drop 1)

/-- The `while` loop of `Utils::split`, for at most `fuel` calls of `getline`
(`none` when the fuel runs out). -/
def splitLoop (delimiter : Char) : Nat → List Char → List String → Option (List String)
  | 0, _, _ => none
  | fuel + 1, ss, result =>
    match getline delimiter ss with
    | none => some result
    | some (item, ss1) =>
      splitLoop delimiter fuel ss1
        (if !item.isEmpty then result ++ [String.mk item] else result)

/-- Embeds `Utils::split`; the fuel, one more than the length of the string,
always suffices (`splitLoop_spec`). -/
def split (str : String) (delimiter : Char) : Option (List String) :=
  splitLoop delimiter (str.data.length + 1) str.data []

end Utils

/-- The pieces lie in the text in their order: the text is a run of delimiters,
the first piece, and then either nothing (and there is no further piece) or a
delimiter followed by a text in which the other pieces lie in the same way; a
text without pieces has only delimiters. -/
def piecesIn (d : Char) : List (List Char) → List Char → Prop
  | [], l => ∀ c ∈ l, c = d
  | p :: ps, l =>
    ∃ (k : Nat) (rest : List Char), l = List.replicate k d ++ p ++ rest ∧
      ((rest = [] ∧ ps = []) ∨ ∃ rest1, rest = d :: rest1 ∧ piecesIn d ps rest1)

namespace Utils

/-- The limits of `int` (32 bits) and of `long` (64 bits, as on the Linux and
macOS targets of the project), from `<climits>`. -/
def INT_MAX : Int := 2147483647

def INT_MIN : Int := -2147483648

def LONG_MAX : Int := 9223372036854775807

def LONG_MIN : Int := -9223372036854775808

/-- Embeds `isspace` in the "C" locale, which `strtol` uses to skip white space. -/
def isSpaceC (c : Char) : Bool :=
  c == ' ' || c == '\t' || c == '\n' || c == Char.ofNat 11 || c == Char.ofNat 12 || c == '\r'

/-- A decimal digit, as `strtol` tests it in base 10. -/
def isDigitC (c : Char) : Bool := c ≥ '0' && c ≤ '9'

/-- The number a run of decimal digits denotes. -/
def digitsValue (digits : List Char) : Nat :=
  digits.foldl (fun acc c => acc * 10 + (c.toNat - 48)) 0

/-- Embeds `strtol(nptr, &endPtr, 10)` on the characters of a C string (the
bytes before the terminating NUL): white space is skipped, an optional sign is
read, then the longest run of digits. The result is the value, clamped to the
range of `long`, and the offset of `endPtr`; when there is no digit the value is
0 and `endPtr` is `nptr` itself. -/
def strtol10 (nptr : List Char) : Int × Nat :=
  let ws := nptr.takeWhile isSpaceC
  let s1 := nptr.dropWhile isSpaceC
  let negative := s1.head? == some '-'
  let signLen := if s1.head? == some '-' || s1.head? == some '+' then 1 else 0
  let s2 := s1.drop signLen
  let digits := s2.takeWhile isDigitC
  if digits.isEmpty then (0, 0)
  else
    let magnitude : Int := (digitsValue digits : Nat)
    let value := if negative then -magnitude else magnitude
    let clamped :=
      if value > LONG_MAX then LONG_MAX else if value < LONG_MIN then LONG_MIN else value
    (clamped, ws.length + signLen + digits.length)

/-- Embeds `Utils::stringToInt(str, result)`: the returned pair is the `bool`
and the content of `result` afterwards. `str.c_str()` is the bytes of `str`
before its first NUL, and `*endPtr` is the byte at the offset of `endPtr`, the
terminating NUL when the offset is the length. -/
def stringToInt (str : String) (result : Int) : Bool × Int :=
  if str.data.isEmpty then (false, result)
  else
    let c_str := (cString str).data
    let (value, endPtr) := strtol10 c_str
    if c_str.getD endPtr (Char.ofNat 0) != Char.ofNat 0 then (false, result)
    else if value > INT_MAX || value < INT_MIN then (false, result)
    else (true, value)

/-- Embeds `Utils::intToString`: the insertion of an `int` into a fresh stream
(no field width, fill character space). -/
def intToString (value : Int) : String := streamInt ' ' 0 value

end Utils

/-- The white-space characters of the "C" locale: space, tab, newline, vertical
tab, form feed, carriage return. -/
def cSpaces : List Char := [' ', '\t', '\n', Char.ofNat 11, Char.ofNat 12, '\r']

/-- The signs a decimal numeral may start with: none, plus or minus. -/
def numeralSigns : List (List Char) := [[], ['+'], ['-']]

/-- The integer denoted by a sign and a run of digits. -/
def numeralValue (sign digits : List Char) : Int :=
  if sign = ['-'] then -((Utils.digitsValue digits : Nat) : Int)
  else ((Utils.digitsValue digits : Nat) : Int)

/-! ## Basic facts about the vector helpers -/

theorem stdFind_le (l : List ClientPtr) (x : ClientPtr) : stdFind l x ≤ l.length := by
  induction l with
  | nil => simp [stdFind]
  | cons y ys ih =>
    by_cases hy : y = x
    · simp [stdFind, hy]
    · simp [stdFind, hy, ih]

theorem stdFind_ne_length_iff (l : List ClientPtr) (x : ClientPtr) :
    stdFind l x ≠ l.length ↔ x ∈ l := by
  induction l with
  | nil => simp [stdFind]
  | cons y ys ih =>
    by_cases hy : y = x
    · simp [stdFind, hy]
    · have hx : ¬ x = y := fun e => hy e.symm
      simp [stdFind, hy, hx, ih]

theorem vecErase_stdFind (l : List ClientPtr) (x : ClientPtr) :
    vecErase l (stdFind l x) = l.erase x := by
  induction l with
  | nil => simp [vecErase, stdFind]
  | cons y ys ih =>
    by_cases hy : y = x
    · simp [vecErase, stdFind, hy]
    · have hb : (y == x) = false := by simpa using hy
      simp only [vecErase] at ih
      simp [vecErase, stdFind, hy, List.erase_cons, hb, ih]

namespace Channel

theorem hasClient_iff (s : Channel) (c : ClientPtr) :
    hasClient s c = true ↔ c ∈ s._clients := by
  simp [hasClient, stdFind_ne_length_iff]

theorem isOperator_iff (s : Channel) (c : ClientPtr) :
    isOperator s c = true ↔ c ∈ s._operators := by
  simp [isOperator, stdFind_ne_length_iff]

theorem isInvited_iff (s : Channel) (c : ClientPtr) :
    isInvited s c = true ↔ c ∈ s._invited := by
  simp [isInvited, stdFind_ne_length_iff]

theorem hasClient_false_iff (s : Channel) (c : ClientPtr) :
    hasClient s c = false ↔ c ∉ s._clients := by
  rw [← hasClient_iff]; simp

theorem isOperator_false_iff (s : Channel) (c : ClientPtr) :
    isOperator s c = false ↔ c ∉ s._operators := by
  rw [← isOperator_iff]; simp

theorem isInvited_false_iff (s : Channel) (c : ClientPtr) :
    isInvited s c = false ↔ c ∉ s._invited := by
  rw [← isInvited_iff]; simp

theorem addOperator_eq (s : Channel) (c : ClientPtr) :
    addOperator s c =
      if c ∈ s._operators then s else { s with _operators := s._operators ++ [c] } := by
  by_cases h : c ∈ s._operators
  · have := (isOperator_iff s c).2 h
    simp [addOperator, this, h]
  · have := (isOperator_false_iff s c).2 h
    simp [addOperator, this, h, pushBack]

theorem addInvited_eq (s : Channel) (c : ClientPtr) :
    addInvited s c =
      if c ∈ s._invited then s else { s with _invited := s._invited ++ [c] } := by
  by_cases h : c ∈ s._invited
  · have := (isInvited_iff s c).2 h
    simp [addInvited, this, h]
  · have := (isInvited_false_iff s c).2 h
    simp [addInvited, this, h, pushBack]

theorem removeOperator_eq (s : Channel) (c : ClientPtr) :
    removeOperator s c = { s with _operators := s._operators.erase c } := by
  by_cases h : c ∈ s._operators
  · have := (stdFind_ne_length_iff s._operators c).2 h
    simp [removeOperator, this, vecErase_stdFind]
  · have : stdFind s._operators c = s._operators.length := by
      by_contra hne; exact h ((stdFind_ne_length_iff _ _).1 hne)
    simp [removeOperator, this, List.erase_of_not_mem h]

theorem removeInvited_eq (s : Channel) (c : ClientPtr) :
    removeInvited s c = { s with _invited := s._invited.erase c } := by
  by_cases h : c ∈ s._invited
  · have := (stdFind_ne_length_iff s._invited c).2 h
    simp [removeInvited, this, vecErase_stdFind]
  · have : stdFind s._invited c = s._invited.length := by
      by_contra hne; exact h ((stdFind_ne_length_iff _ _).1 hne)
    simp [removeInvited, this, List.erase_of_not_mem h]

theorem removeClient_eq (s : Channel) (c : ClientPtr) :
    removeClient s c =
      { s with _clients := s._clients.erase c, _operators := s._operators.erase c,
               _invited := s._invited.erase c } := by
  by_cases h : c ∈ s._clients
  · have := (stdFind_ne_length_iff s._clients c).2 h
    simp [removeClient, this, vecErase_stdFind, removeOperator_eq, removeInvited_eq]
  · have : stdFind s._clients c = s._clients.length := by
      by_contra hne; exact h ((stdFind_ne_length_iff _ _).1 hne)
    simp [removeClient, this, List.erase_of_not_mem h, removeOperator_eq, removeInvited_eq]

theorem addClient_eq (s : Channel) (c : ClientPtr) :
    addClient s c =
      if c ∈ s._clients then s
      else if s._clients = [] then
        addOperator { s with _clients := [c] } c
      else { s with _clients := s._clients ++ [c] } := by
  by_cases h : c ∈ s._clients
  · have := (hasClient_iff s c).2 h
    simp [addClient, this, h]
  · have hf := (hasClient_false_iff s c).2 h
    by_cases he : s._clients = []
    · simp [addClient, hf, he, pushBack]
    · have hl : s._clients.length ≠ 0 := by simpa using he
      simp [addClient, hf, h, he, pushBack, hl]

end Channel

namespace Channel

/-! ## Invariants of reachable states -/

theorem ctor_noDuplicates (name : String) : noDuplicates (ctor name) := by
  simp [noDuplicates, ctor]

theorem step_noDuplicates (s : Channel) (op : Op) (hs : noDuplicates s) :
    noDuplicates (step s op) := by
  obtain ⟨hc, ho, hi⟩ := hs
  cases op with
  | addClient c =>
    simp only [step, addClient_eq, addOperator_eq]
    by_cases h1 : c ∈ s._clients
    · simpa [h1, noDuplicates] using ⟨hc, ho, hi⟩
    · by_cases h2 : s._clients = []
      · by_cases h3 : c ∈ s._operators
        · simp [h1, h2, h3, noDuplicates, ho, hi]
        · simp [h1, h2, h3, noDuplicates, ho, hi, List.nodup_append]
      · simp [h1, h2, noDuplicates, ho, hi, hc, List.nodup_append]
  | removeClient c =>
    simp only [step, removeClient_eq, noDuplicates]
    exact ⟨hc.erase c, ho.erase c, hi.erase c⟩
  | addOperator c =>
    simp only [step, addOperator_eq]
    by_cases h : c ∈ s._operators
    · simpa [h, noDuplicates] using ⟨hc, ho, hi⟩
    · simp [h, noDuplicates, hc, ho, hi, List.nodup_append]
  | removeOperator c =>
    simp only [step, removeOperator_eq, noDuplicates]
    exact ⟨hc, ho.erase c, hi⟩
  | addInvited c =>
    simp only [step, addInvited_eq]
    by_cases h : c ∈ s._invited
    · simpa [h, noDuplicates] using ⟨hc, ho, hi⟩
    · simp [h, noDuplicates, hc, ho, hi, List.nodup_append]
  | removeInvited c =>
    simp only [step, removeInvited_eq, noDuplicates]
    exact ⟨hc, ho, hi.erase c⟩
  | setTopic t => exact ⟨hc, ho, hi⟩
  | setKey k => exact ⟨hc, ho, hi⟩
  | removeKey => exact ⟨hc, ho, hi⟩
  | setUserLimit n => exact ⟨hc, ho, hi⟩
  | removeUserLimit => exact ⟨hc, ho, hi⟩
  | setInviteOnly b => exact ⟨hc, ho, hi⟩
  | setTopicRestricted b => exact ⟨hc, ho, hi⟩

theorem run_noDuplicates (ops : List Op) :
    ∀ s : Channel, noDuplicates s → noDuplicates (run s ops) := by
  induction ops with
  | nil => intro s hs; exact hs
  | cons op ops ih => intro s hs; exact ih _ (step_noDuplicates s op hs)

theorem reachable_noDuplicates (s : Channel) (hs : Reachable s) : noDuplicates s := by
  obtain ⟨name, ops, rfl⟩ := hs
  exact run_noDuplicates ops _ (ctor_noDuplicates name)

theorem step_operatorsAreMembers (s : Channel) (op : Op) (hd : noDuplicates s)
    (hs : operatorsAreMembers s) (hr : respectsMembership s op = true) :
    operatorsAreMembers (step s op) := by
  obtain ⟨_, ho, _⟩ := hd
  cases op with
  | addClient c =>
    simp only [step, addClient_eq, addOperator_eq]
    by_cases h1 : c ∈ s._clients
    · simpa [h1] using hs
    · by_cases h2 : s._clients = []
      · have hnil : s._operators = [] := by
          cases hops : s._operators with
          | nil => rfl
          | cons d ds =>
            have := hs d (by simp [hops])
            simp [h2] at this
        simp [h1, h2, hnil, operatorsAreMembers]
      · intro d hd
        simp only [h1, h2, if_false] at hd ⊢
        exact List.mem_append_left _ (hs d hd)
  | removeClient c =>
    simp only [step, removeClient_eq]
    intro d hd
    have hd2 := (ho.mem_erase_iff).1 hd
    exact (List.mem_erase_of_ne hd2.1).2 (hs d hd2.2)
  | addOperator c =>
    have hc : c ∈ s._clients := (hasClient_iff s c).1 hr
    simp only [step, addOperator_eq]
    by_cases h : c ∈ s._operators
    · simpa [h] using hs
    · intro d hd
      simp only [h, if_false, List.mem_append, List.mem_singleton] at hd ⊢
      rcases hd with hd | rfl
      · exact hs d hd
      · exact hc
  | removeOperator c =>
    simp only [step, removeOperator_eq]
    intro d hd
    exact hs d (List.mem_of_mem_erase hd)
  | addInvited c =>
    simp only [step, addInvited_eq]
    by_cases h : c ∈ s._invited
    · simpa [h] using hs
    · simpa [h, operatorsAreMembers] using hs
  | removeInvited c =>
    simp only [step, removeInvited_eq]
    exact hs
  | setTopic t => exact hs
  | setKey k => exact hs
  | removeKey => exact hs
  | setUserLimit n => exact hs
  | removeUserLimit => exact hs
  | setInviteOnly b => exact hs
  | setTopicRestricted b => exact hs

theorem run_operatorsAreMembers (ops : List Op) :
    ∀ s : Channel, noDuplicates s → operatorsAreMembers s →
      allRespectMembership s ops = true → operatorsAreMembers (run s ops) := by
  induction ops with
  | nil => intro s _ hs _; exact hs
  | cons op ops ih =>
    intro s hd hs hr
    simp only [allRespectMembership, Bool.and_eq_true] at hr
    exact ih _ (step_noDuplicates s op hd) (step_operatorsAreMembers s op hd hs hr.1) hr.2

theorem reachablePromoting_operatorsAreMembers (s : Channel)
    (hs : ReachablePromotingMembers s) : operatorsAreMembers s := by
  obtain ⟨name, ops, hr, rfl⟩ := hs
  refine run_operatorsAreMembers ops _ (ctor_noDuplicates name) ?_ hr
  intro c hc
  simp [ctor] at hc

end Channel

namespace Channel

/-! ## Membership claims -/

/-- C1 (as stated, refuted): `staleOperatorChannel` is reachable through the
public operations and has no member, yet after `addClient(3)` client 7 is an
operator as well, so the joiner is not the only operator. -/
theorem addClient_first_joiner_counterexample :
    Reachable staleOperatorChannel ∧ staleOperatorChannel._clients = [] ∧
      (addClient staleOperatorChannel 3)._operators = [7, 3] ∧
      ¬ (∀ d, isOperator (addClient staleOperatorChannel 3) d = true → d = 3) := by
  refine ⟨⟨"#c", [.addOperator 7], rfl⟩, by decide, by decide, ?_⟩
  intro h
  have h7 := h 7 (by decide)
  exact absurd h7 (by decide)

/-- C1 (amended): in every state reached from the constructor by public
operations that call `addOperator` on members only, `addClient(c)` on a channel
without members makes `c` a member and an operator and the only operator;
on a channel with members it leaves the operator list unchanged. -/
theorem addClient_first_joiner (s : Channel) (hs : ReachablePromotingMembers s)
    (c : ClientPtr) :
    (s._clients = [] →
      hasClient (addClient s c) c = true ∧ isOperator (addClient s c) c = true ∧
        (∀ d, isOperator (addClient s c) d = true → d = c) ∧
        (addClient s c)._operators = [c]) ∧
    (s._clients ≠ [] → (addClient s c)._operators = s._operators) := by
  have hsub := reachablePromoting_operatorsAreMembers s hs
  constructor
  · intro he
    have hnil : s._operators = [] := by
      cases hops : s._operators with
      | nil => rfl
      | cons d ds =>
        have := hsub d (by simp [hops])
        simp [he] at this
    have hops : (addClient s c)._operators = [c] := by
      simp [addClient_eq, addOperator_eq, he, hnil]
    have hcl : (addClient s c)._clients = [c] := by
      simp [addClient_eq, addOperator_eq, he, hnil]
    refine ⟨?_, ?_, ?_, hops⟩
    · rw [hasClient_iff, hcl]; simp
    · rw [isOperator_iff, hops]; simp
    · intro d hd
      rw [isOperator_iff, hops] at hd
      simpa using hd
  · intro hne
    by_cases h1 : c ∈ s._clients
    · simp [addClient_eq, h1]
    · simp [addClient_eq, h1, hne]

/-- Witness for C1: the rule applied to a fresh channel and client 1. -/
theorem addClient_first_joiner_witness :
    ReachablePromotingMembers (ctor "#lounge") ∧
      (addClient (ctor "#lounge") 1)._operators = [1] :=
  have hr : ReachablePromotingMembers (ctor "#lounge") := ⟨"#lounge", [], rfl, rfl⟩
  ⟨hr, ((addClient_first_joiner (ctor "#lounge") hr 1).1 rfl).2.2.2⟩

/-- C2 (as stated, refuted): `staleOperatorChannel` is reachable through the
public mutators, client 7 is an operator of it and is not a member. -/
theorem operators_members_counterexample :
    Reachable staleOperatorChannel ∧ isOperator staleOperatorChannel 7 = true ∧
      hasClient staleOperatorChannel 7 = false :=
  ⟨⟨"#c", [.addOperator 7], rfl⟩, by decide, by decide⟩

/-- C2 (amended): in every state reached from the constructor by any sequence
of the public mutators in which `addOperator` is called on members only, every
client for which `isOperator` is true also satisfies `hasClient`. -/
theorem operators_are_members (s : Channel) (hs : ReachablePromotingMembers s)
    (c : ClientPtr) (hc : isOperator s c = true) : hasClient s c = true :=
  (hasClient_iff s c).2
    (reachablePromoting_operatorsAreMembers s hs c ((isOperator_iff s c).1 hc))

/-- Witness for C2: alice, the operator of `demoChannel`, is a member of it. -/
theorem operators_are_members_witness :
    ReachablePromotingMembers demoChannel ∧ isOperator demoChannel 1 = true ∧
      hasClient demoChannel 1 = true :=
  have hr : ReachablePromotingMembers demoChannel :=
    ⟨"#lounge", [.addClient 1, .addInvited 3, .addClient 2, .addClient 3,
      .setTopicRestricted true], by decide, rfl⟩
  ⟨hr, by decide, operators_are_members demoChannel hr 1 (by decide)⟩

/-- C3: in every reachable state, `removeClient(c)` leaves `c` neither member nor
operator nor invited, leaves the three statuses of every other client as they
were, and keeps the remaining members in their previous order. -/
theorem removeClient_teardown (s : Channel) (hs : Reachable s) (c : ClientPtr) :
    hasClient (removeClient s c) c = false ∧
    isOperator (removeClient s c) c = false ∧
    isInvited (removeClient s c) c = false ∧
    (∀ d, d ≠ c →
      hasClient (removeClient s c) d = hasClient s d ∧
      isOperator (removeClient s c) d = isOperator s d ∧
      isInvited (removeClient s c) d = isInvited s d) ∧
    (removeClient s c)._clients = s._clients.filter (fun d => d != c) ∧
    (removeClient s c)._operators = s._operators.filter (fun d => d != c) ∧
    (removeClient s c)._invited = s._invited.filter (fun d => d != c) := by
  obtain ⟨hc, ho, hi⟩ := reachable_noDuplicates s hs
  refine ⟨?_, ?_, ?_, ?_, ?_, ?_, ?_⟩
  · rw [hasClient_false_iff, removeClient_eq]
    exact fun h => (hc.mem_erase_iff.1 h).1 rfl
  · rw [isOperator_false_iff, removeClient_eq]
    exact fun h => (ho.mem_erase_iff.1 h).1 rfl
  · rw [isInvited_false_iff, removeClient_eq]
    exact fun h => (hi.mem_erase_iff.1 h).1 rfl
  · intro d hd
    refine ⟨?_, ?_, ?_⟩
    · rw [Bool.eq_iff_iff, hasClient_iff, hasClient_iff, removeClient_eq]
      exact List.mem_erase_of_ne hd
    · rw [Bool.eq_iff_iff, isOperator_iff, isOperator_iff, removeClient_eq]
      exact List.mem_erase_of_ne hd
    · rw [Bool.eq_iff_iff, isInvited_iff, isInvited_iff, removeClient_eq]
      exact List.mem_erase_of_ne hd
  · rw [removeClient_eq]
    simpa using hc.erase_eq_filter c
  · rw [removeClient_eq]
    simpa using ho.erase_eq_filter c
  · rw [removeClient_eq]
    simpa using hi.erase_eq_filter c

/-- Witness for C3: carol (member and invited) leaves `demoChannel`. -/
theorem removeClient_teardown_witness :
    Reachable demoChannel ∧ hasClient (removeClient demoChannel 3) 3 = false ∧
      isInvited (removeClient demoChannel 3) 3 = false ∧
      (removeClient demoChannel 3)._clients = [1, 2] :=
  have hr : Reachable demoChannel :=
    ⟨"#lounge", [.addClient 1, .addInvited 3, .addClient 2, .addClient 3,
      .setTopicRestricted true], rfl⟩
  have h := removeClient_teardown demoChannel hr 3
  ⟨hr, h.1, h.2.2.1, by rw [h.2.2.2.2.1]; decide⟩

end Channel

namespace Channel

/-! ## Mode string -/

theorem getModeString_flags (s : Channel) :
    getModeString s =
      getModeString { ctor "" with _inviteOnly := s._inviteOnly,
                                   _topicRestricted := s._topicRestricted,
                                   _hasKey := s._hasKey,
                                   _hasUserLimit := s._hasUserLimit } := rfl

theorem flags_of_getModeString (s : Channel) :
    s._inviteOnly = (getModeString s).data.contains 'i' ∧
    s._topicRestricted = (getModeString s).data.contains 't' ∧
    s._hasKey = (getModeString s).data.contains 'k' ∧
    s._hasUserLimit = (getModeString s).data.contains 'l' := by
  rw [getModeString_flags s]
  cases s._inviteOnly <;> cases s._topicRestricted <;> cases s._hasKey <;>
    cases s._hasUserLimit <;> decide

/-- C4: `getModeString` is empty when no flag is set, and otherwise is "+"
followed by the letters of the set flags in the order i, t, k, l. -/
theorem getModeString_spec (s : Channel) :
    getModeString s =
      if s._inviteOnly = false ∧ s._topicRestricted = false ∧ s._hasKey = false ∧
          s._hasUserLimit = false then ""
      else "+" ++ setFlagLetters s := by
  rw [getModeString_flags s]
  simp only [setFlagLetters, modeFlags]
  cases s._inviteOnly <;> cases s._topicRestricted <;> cases s._hasKey <;>
    cases s._hasUserLimit <;> decide

theorem getModeString_expected (s : Channel) :
    getModeString s =
      expectedModeString s._inviteOnly s._topicRestricted s._hasKey s._hasUserLimit := by
  rw [getModeString_flags s]
  cases s._inviteOnly <;> cases s._topicRestricted <;> cases s._hasKey <;>
    cases s._hasUserLimit <;> decide

theorem setModes_flags (s : Channel) (i t : Bool) (key : Option String) (limit : Option Nat) :
    (setModes s i t key limit)._inviteOnly = (s._inviteOnly || i) ∧
    (setModes s i t key limit)._topicRestricted = (s._topicRestricted || t) ∧
    (setModes s i t key limit)._hasKey = (s._hasKey || key.isSome) ∧
    (setModes s i t key limit)._hasUserLimit = (s._hasUserLimit || limit.isSome) := by
  cases i <;> cases t <;> cases key <;> cases limit <;>
    simp [setModes, setInviteOnly, setTopicRestricted, setKey, setUserLimit]

/-- C5: the mode string reflects exactly the flags set. Two channels render
the same string exactly when they agree on the four flags. Each setting or
clearing call gives its own flag the value asked for and leaves the other three
as they were, so its letter is in the rendered string exactly when the flag was
set. Setting any subset of the modes on a fresh channel renders "+" and the
letters of that subset in the order i, t, k, l (the empty string for the empty
subset), and on any channel adds the subset to the flags already set. Clearing
the four modes afterwards, or after any sequence of calls, renders the empty
string. -/
theorem getModeString_round_trip :
    (∀ a b : Channel, getModeString a = getModeString b ↔
      (a._inviteOnly = b._inviteOnly ∧ a._topicRestricted = b._topicRestricted ∧
        a._hasKey = b._hasKey ∧ a._hasUserLimit = b._hasUserLimit)) ∧
    (∀ (s : Channel) (b : Bool),
      isInviteOnly (setInviteOnly s b) = b ∧
      isTopicRestricted (setInviteOnly s b) = isTopicRestricted s ∧
      hasKey (setInviteOnly s b) = hasKey s ∧
      hasUserLimit (setInviteOnly s b) = hasUserLimit s ∧
      (getModeString (setInviteOnly s b)).data.contains 'i' = b ∧
      getModeString (setInviteOnly s b) =
        expectedModeString b s._topicRestricted s._hasKey s._hasUserLimit) ∧
    (∀ (s : Channel) (b : Bool),
      isTopicRestricted (setTopicRestricted s b) = b ∧
      isInviteOnly (setTopicRestricted s b) = isInviteOnly s ∧
      hasKey (setTopicRestricted s b) = hasKey s ∧
      hasUserLimit (setTopicRestricted s b) = hasUserLimit s ∧
      (getModeString (setTopicRestricted s b)).data.contains 't' = b ∧
      getModeString (setTopicRestricted s b) =
        expectedModeString s._inviteOnly b s._hasKey s._hasUserLimit) ∧
    (∀ (s : Channel) (k : String),
      hasKey (setKey s k) = true ∧
      isInviteOnly (setKey s k) = isInviteOnly s ∧
      isTopicRestricted (setKey s k) = isTopicRestricted s ∧
      hasUserLimit (setKey s k) = hasUserLimit s ∧
      (getModeString (setKey s k)).data.contains 'k' = true ∧
      getModeString (setKey s k) =
        expectedModeString s._inviteOnly s._topicRestricted true s._hasUserLimit) ∧
    (∀ (s : Channel) (n : Nat),
      hasUserLimit (setUserLimit s n) = true ∧
      isInviteOnly (setUserLimit s n) = isInviteOnly s ∧
      isTopicRestricted (setUserLimit s n) = isTopicRestricted s ∧
      hasKey (setUserLimit s n) = hasKey s ∧
      (getModeString (setUserLimit s n)).data.contains 'l' = true ∧
      getModeString (setUserLimit s n) =
        expectedModeString s._inviteOnly s._topicRestricted s._hasKey true) ∧
    (∀ s : Channel,
      hasKey (removeKey s) = false ∧
      isInviteOnly (removeKey s) = isInviteOnly s ∧
      isTopicRestricted (removeKey s) = isTopicRestricted s ∧
      hasUserLimit (removeKey s) = hasUserLimit s ∧
      (getModeString (removeKey s)).data.contains 'k' = false ∧
      getModeString (removeKey s) =
        expectedModeString s._inviteOnly s._topicRestricted false s._hasUserLimit) ∧
    (∀ s : Channel,
      hasUserLimit (removeUserLimit s) = false ∧
      isInviteOnly (removeUserLimit s) = isInviteOnly s ∧
      isTopicRestricted (removeUserLimit s) = isTopicRestricted s ∧
      hasKey (removeUserLimit s) = hasKey s ∧
      (getModeString (removeUserLimit s)).data.contains 'l' = false ∧
      getModeString (removeUserLimit s) =
        expectedModeString s._inviteOnly s._topicRestricted s._hasKey false) ∧
    (∀ (name : String) (i t : Bool) (key : Option String) (limit : Option Nat),
      getModeString (setModes (ctor name) i t key limit) =
        expectedModeString i t key.isSome limit.isSome) ∧
    (∀ (s : Channel) (i t : Bool) (key : Option String) (limit : Option Nat),
      getModeString (setModes s i t key limit) =
        expectedModeString (s._inviteOnly || i) (s._topicRestricted || t)
          (s._hasKey || key.isSome) (s._hasUserLimit || limit.isSome) ∧
      getModeString (clearAllModes (setModes s i t key limit)) = "") ∧
    (∀ (s : Channel) (sets : List Op), getModeString (clearAllModes (run s sets)) = "") := by
  refine ⟨?_, ?_, ?_, ?_, ?_, ?_, ?_, ?_, ?_, ?_⟩
  · intro a b
    constructor
    · intro h
      obtain ⟨a1, a2, a3, a4⟩ := flags_of_getModeString a
      obtain ⟨b1, b2, b3, b4⟩ := flags_of_getModeString b
      rw [a1, a2, a3, a4, b1, b2, b3, b4, h]
      exact ⟨rfl, rfl, rfl, rfl⟩
    · rintro ⟨h1, h2, h3, h4⟩
      rw [getModeString_flags a, getModeString_flags b, h1, h2, h3, h4]
  · intro s b
    exact ⟨rfl, rfl, rfl, rfl, (flags_of_getModeString (setInviteOnly s b)).1.symm,
      getModeString_expected (setInviteOnly s b)⟩
  · intro s b
    exact ⟨rfl, rfl, rfl, rfl, (flags_of_getModeString (setTopicRestricted s b)).2.1.symm,
      getModeString_expected (setTopicRestricted s b)⟩
  · intro s k
    exact ⟨rfl, rfl, rfl, rfl, (flags_of_getModeString (setKey s k)).2.2.1.symm,
      getModeString_expected (setKey s k)⟩
  · intro s n
    exact ⟨rfl, rfl, rfl, rfl, (flags_of_getModeString (setUserLimit s n)).2.2.2.symm,
      getModeString_expected (setUserLimit s n)⟩
  · intro s
    exact ⟨rfl, rfl, rfl, rfl, (flags_of_getModeString (removeKey s)).2.2.1.symm,
      getModeString_expected (removeKey s)⟩
  · intro s
    exact ⟨rfl, rfl, rfl, rfl, (flags_of_getModeString (removeUserLimit s)).2.2.2.symm,
      getModeString_expected (removeUserLimit s)⟩
  · intro name i t key limit
    obtain ⟨h1, h2, h3, h4⟩ := setModes_flags (ctor name) i t key limit
    rw [getModeString_expected, h1, h2, h3, h4]
    simp [ctor]
  · intro s i t key limit
    obtain ⟨h1, h2, h3, h4⟩ := setModes_flags s i t key limit
    exact ⟨by rw [getModeString_expected, h1, h2, h3, h4], rfl⟩
  · intro s sets
    rfl

end Channel

namespace Channel

/-! ## Names list -/

theorem getUserListFrom_go (h : Heap) (s : Channel) :
    ∀ (l : List ClientPtr) (i : Nat) (acc : String), 0 < i →
      (∀ c ∈ l, (h c).isSome = true) →
      getUserListFrom h s l i acc =
        some (String.intercalate.go acc " " (l.map (namesEntry h s))) := by
  intro l
  induction l with
  | nil => intro i acc _ _; simp [getUserListFrom, String.intercalate.go]
  | cons c rest ih =>
    intro i acc hi hl
    have hc : (h c).isSome = true := hl c (by simp)
    obtain ⟨obj, hobj⟩ := Option.isSome_iff_exists.1 hc
    have hrest : ∀ d ∈ rest, (h d).isSome = true := fun d hd => hl d (by simp [hd])
    simp only [getUserListFrom, hobj, gt_iff_lt, hi, if_true, List.map_cons,
      String.intercalate.go]
    rw [ih (i + 1) _ (Nat.succ_pos i) hrest]
    congr 2
    cases hop : isOperator s c
    · simp [namesEntry, nickOf, hobj, hop, String.append_assoc]
    · simp only [namesEntry, nickOf, hobj, hop, String.append_assoc, if_true]

/-- C6: when every member points to a client object, `getUserList` returns the
entries of the members, in membership order, joined by single spaces, the entry
of a member being its nickname, with "@" in front exactly when it is an
operator; for a channel without members the result is the empty string. -/
theorem getUserList_spec (h : Heap) (s : Channel) (hl : membersLive h s) :
    getUserList h s = some (String.intercalate " " (s._clients.map (namesEntry h s))) ∧
    (∀ c, namesEntry h s c = if isOperator s c = true then "@" ++ nickOf h c else nickOf h c) ∧
    (s._clients = [] → getUserList h s = some "") := by
  refine ⟨?_, ?_, ?_⟩
  · unfold getUserList
    cases hcl : s._clients with
    | nil => simp [getUserListFrom, String.intercalate]
    | cons c rest =>
      have hc : (h c).isSome = true := hl c (by simp [hcl])
      obtain ⟨obj, hobj⟩ := Option.isSome_iff_exists.1 hc
      have hrest : ∀ d ∈ rest, (h d).isSome = true := fun d hd => hl d (by simp [hcl, hd])
      simp only [getUserListFrom, hobj, gt_iff_lt, Nat.lt_irrefl, if_false, List.map_cons,
        String.intercalate]
      rw [getUserListFrom_go h s rest 1 _ Nat.one_pos hrest]
      congr 2
      cases hop : isOperator s c
      · simp [namesEntry, nickOf, hobj, hop]
      · simp [namesEntry, nickOf, hobj, hop]
  · intro c
    cases hop : isOperator s c <;> simp [namesEntry, hop]
  · intro he
    simp [getUserList, he, getUserListFrom]

/-- Witness for C6: the names list of `demoChannel`. -/
theorem getUserList_spec_witness :
    membersLive demoHeap demoChannel ∧
      getUserList demoHeap demoChannel = some "@alice bob carol" :=
  have hl : membersLive demoHeap demoChannel := by
    intro c hc
    have hmem : c = 1 ∨ c = 2 ∨ c = 3 := by
      have : demoChannel._clients = [1, 2, 3] := by decide
      rw [this] at hc
      simpa using hc
    rcases hmem with rfl | rfl | rfl <;> decide
  ⟨hl, by rw [(getUserList_spec demoHeap demoChannel hl).1]; decide⟩

end Channel

/-! ## Broadcast -/

theorem sendToClient_effect (sys : Nat → Int) (h : Heap) (w : World) (c : ClientPtr)
    (message : String) (hc : c ≠ NULL → (h c).isSome = true) :
    ∃ (b : Bool) (w1 : World), sendToClient sys h w c message = some (b, w1) ∧
      w1.calls = w.calls ++ [(c, message)] ∧
      w1.wire = w.wire ++ (if c = NULL then [] else [(fdOf h c, message ++ "\r\n")]) := by
  by_cases hn : c = NULL
  · exact ⟨false, ⟨w.calls ++ [(c, message)], w.wire⟩, by simp [sendToClient, hn], rfl,
      by simp [hn]⟩
  · obtain ⟨obj, hobj⟩ := Option.isSome_iff_exists.1 (hc hn)
    have hw : (⟨w.calls ++ [(c, message)],
        w.wire ++ [(obj._fd, message ++ "\r\n")]⟩ : World).wire =
        w.wire ++ (if c = NULL then [] else [(fdOf h c, message ++ "\r\n")]) := by
      simp [hn, fdOf, hobj]
    by_cases h1 : sys w.wire.length < 0
    · refine ⟨false, ⟨w.calls ++ [(c, message)],
        w.wire ++ [(obj._fd, message ++ "\r\n")]⟩, ?_, rfl, hw⟩
      simp only [sendToClient, hn, hobj, h1, if_true, if_false]
    · by_cases h2 : (sys w.wire.length).toNat = (message ++ "\r\n").length
      · refine ⟨true, ⟨w.calls ++ [(c, message)],
          w.wire ++ [(obj._fd, message ++ "\r\n")]⟩, ?_, rfl, hw⟩
        simp only [sendToClient, hn, hobj, h1, h2, if_false, bne_self_eq_false]
        rfl
      · have h3 : ((sys w.wire.length).toNat != (message ++ "\r\n").length) = true := by
          simpa using h2
        refine ⟨false, ⟨w.calls ++ [(c, message)],
          w.wire ++ [(obj._fd, message ++ "\r\n")]⟩, ?_, rfl, hw⟩
        simp only [sendToClient, hn, hobj, h1, h3, if_true, if_false]

theorem broadcastFrom_effect (sys : Nat → Int) (h : Heap) (message : String)
    (exclude : ClientPtr) :
    ∀ (l : List ClientPtr) (w : World),
      (∀ c ∈ l, c ≠ exclude → c ≠ NULL → (h c).isSome = true) →
      ∃ w1 : World, broadcastFrom sys h message exclude l w = some w1 ∧
        w1.calls = w.calls ++ (l.filter (fun c => c != exclude)).map (fun c => (c, message)) ∧
        w1.wire = w.wire ++
          (l.filter (fun c => c != exclude && c != NULL)).map
            (fun c => (fdOf h c, message ++ "\r\n")) := by
  intro l
  induction l with
  | nil => intro w _; exact ⟨w, rfl, by simp, by simp⟩
  | cons c rest ih =>
    intro w hl
    have hrest : ∀ d ∈ rest, d ≠ exclude → d ≠ NULL → (h d).isSome = true :=
      fun d hd => hl d (by simp [hd])
    by_cases hx : c = exclude
    · obtain ⟨w1, e1, e2, e3⟩ := ih w hrest
      refine ⟨w1, ?_, ?_, ?_⟩
      · simp [broadcastFrom, hx]
        simpa [hx] using e1
      · simpa [hx] using e2
      · simpa [hx] using e3
    · obtain ⟨b, wc, s1, s2, s3⟩ :=
        sendToClient_effect sys h w c message (hl c (by simp) hx)
      obtain ⟨w1, e1, e2, e3⟩ := ih wc hrest
      refine ⟨w1, ?_, ?_, ?_⟩
      · simp [broadcastFrom, hx, s1, e1]
      · rw [e2, s2]; simp [hx]
      · rw [e3, s3]
        by_cases hn : c = NULL
        · simp [hx, hn]
        · simp [hx, hn]

namespace Channel

/-- C7: in a reachable channel whose recipients point to client objects,
`broadcast` calls `sendToClient` with the same message once for each member other
than `exclude`, in membership order, and for no one else; which calls are made
does not depend on the outcome of any `send`. -/
theorem broadcast_delivery (sys : Nat → Int) (h : Heap) (w : World) (s : Channel)
    (hs : Reachable s) (message : String) (exclude : ClientPtr)
    (hl : recipientsLive h s exclude) :
    ∃ w1 : World, broadcast sys h w s message exclude = some w1 ∧
      w1.calls = w.calls ++ (recipients s exclude).map (fun c => (c, message)) ∧
      (∀ c, c ∈ s._clients → c ≠ exclude → (recipients s exclude).count c = 1) ∧
      (∀ c, (c ∉ s._clients ∨ c = exclude) → (recipients s exclude).count c = 0) ∧
      (∀ sys2 : Nat → Int, ∃ w2 : World,
        broadcast sys2 h w s message exclude = some w2 ∧ w2.calls = w1.calls) ∧
      w1.wire = w.wire ++
        ((recipients s exclude).filter (fun c => c != NULL)).map
          (fun c => (fdOf h c, message ++ "\r\n")) := by
  obtain ⟨w1, e1, e2, e3⟩ := broadcastFrom_effect sys h message exclude s._clients w hl
  have hnd : (recipients s exclude).Nodup := (reachable_noDuplicates s hs).1.filter _
  refine ⟨w1, e1, e2, ?_, ?_, ?_, ?_⟩
  · intro c hc hx
    exact List.count_eq_one_of_mem hnd (by simp [recipients, hc, hx])
  · intro c hc
    apply List.count_eq_zero_of_not_mem
    rcases hc with hc | hc
    · simp [recipients, hc]
    · simp [recipients, hc]
  · intro sys2
    obtain ⟨w2, f1, f2, _⟩ := broadcastFrom_effect sys2 h message exclude s._clients w hl
    exact ⟨w2, f1, by rw [f2, e2]⟩
  · rw [e3]; simp [recipients, List.filter_filter, Bool.and_comm]

/-- Witness for C7: bob speaks on `demoChannel` while every `send` fails; alice
and carol are still both handed the message, in that order. -/
theorem broadcast_delivery_witness :
    Reachable demoChannel ∧ recipientsLive demoHeap demoChannel 2 ∧
      (broadcast (fun _ => -1) demoHeap ⟨[], []⟩ demoChannel "hi" 2).map World.calls =
        some [(1, "hi"), (3, "hi")] :=
  have hr : Reachable demoChannel :=
    ⟨"#lounge", [.addClient 1, .addInvited 3, .addClient 2, .addClient 3,
      .setTopicRestricted true], rfl⟩
  have hl : recipientsLive demoHeap demoChannel 2 := by
    intro c hc _ _
    have hmem : c = 1 ∨ c = 2 ∨ c = 3 := by
      have : demoChannel._clients = [1, 2, 3] := by decide
      rw [this] at hc
      simpa using hc
    rcases hmem with rfl | rfl | rfl <;> decide
  ⟨hr, hl, by
    obtain ⟨w1, e1, e2, _⟩ :=
      broadcast_delivery (fun _ => -1) demoHeap ⟨[], []⟩ demoChannel hr "hi" 2 hl
    rw [e1, Option.map_some', e2]
    decide⟩

end Channel

namespace Channel

/-! ## Joining: user limit and invitations -/

/-- C8 (as stated, refuted): on `fullSoloChannel` a limit of 1 is set and the
member count equals it, client 2 is not a member, and `addClient(2)` is not
rejected: the members become 1 and 2, more than the limit. -/
theorem addClient_user_limit_counterexample :
    hasUserLimit fullSoloChannel = true ∧
      getClientCount fullSoloChannel = getUserLimit fullSoloChannel ∧
      hasClient fullSoloChannel 2 = false ∧
      (addClient fullSoloChannel 2)._clients = [1, 2] ∧
      (addClient fullSoloChannel 2)._clients ≠ fullSoloChannel._clients ∧
      ¬ (getClientCount (addClient fullSoloChannel 2) ≤ getUserLimit fullSoloChannel) := by
  decide

/-- C8 (amended): `addClient` does not look at the user limit. For a client `c`
that is not a member, whatever the limit and the member count, `addClient(c)`
appends `c` to the members, so the count grows by one, and leaves the limit and
its flag as they were; `setUserLimit(n)` records `n` and sets the flag without
touching the members. -/
theorem addClient_ignores_user_limit (s : Channel) (c : ClientPtr)
    (hc : hasClient s c = false) :
    (addClient s c)._clients = s._clients ++ [c] ∧
    getClientCount (addClient s c) = getClientCount s + 1 ∧
    hasUserLimit (addClient s c) = hasUserLimit s ∧
    getUserLimit (addClient s c) = getUserLimit s ∧
    (∀ n, (setUserLimit s n)._clients = s._clients ∧
      hasUserLimit (setUserLimit s n) = true ∧ getUserLimit (setUserLimit s n) = n) := by
  have hmem : c ∉ s._clients := (hasClient_false_iff s c).1 hc
  have hcl : (addClient s c)._clients = s._clients ++ [c] := by
    rw [addClient_eq, addOperator_eq]
    by_cases he : s._clients = []
    · by_cases ho : c ∈ s._operators <;> simp [hmem, he, ho]
    · simp [hmem, he]
  have hlim : hasUserLimit (addClient s c) = hasUserLimit s ∧
      getUserLimit (addClient s c) = getUserLimit s := by
    rw [addClient_eq, addOperator_eq]
    by_cases he : s._clients = []
    · by_cases ho : c ∈ s._operators <;> simp [hmem, he, ho, hasUserLimit, getUserLimit]
    · simp [hmem, he, hasUserLimit, getUserLimit]
  refine ⟨hcl, ?_, hlim.1, hlim.2, ?_⟩
  · simp [getClientCount, hcl]
  · intro n
    exact ⟨rfl, rfl, rfl⟩

/-- Witness for C8: client 2 joins `fullSoloChannel`. -/
theorem addClient_ignores_user_limit_witness :
    hasClient fullSoloChannel 2 = false ∧
      getClientCount (addClient fullSoloChannel 2) = getClientCount fullSoloChannel + 1 :=
  ⟨by decide, (addClient_ignores_user_limit fullSoloChannel 2 (by decide)).2.1⟩

/-- C9 (as stated, refuted): on `invitingChannel` client 5 is invited and is not
a member; after `addClient(5)` it is a member and is still invited. -/
theorem addClient_invite_counterexample :
    isInvited invitingChannel 5 = true ∧ hasClient invitingChannel 5 = false ∧
      hasClient (addClient invitingChannel 5) 5 = true ∧
      isInvited (addClient invitingChannel 5) 5 = true ∧
      (addClient invitingChannel 5)._invited = [5] := by
  decide

/-- C9 (amended): for every channel and client `c`, after `addClient(c)` the
client is a member and the invite list is what it was, so every client, `c`
included, is invited afterwards exactly when it was invited before. -/
theorem addClient_keeps_invitations (s : Channel) (c : ClientPtr) :
    hasClient (addClient s c) c = true ∧
    (addClient s c)._invited = s._invited ∧
    (∀ d, isInvited (addClient s c) d = isInvited s d) := by
  have hinv : (addClient s c)._invited = s._invited := by
    rw [addClient_eq, addOperator_eq]
    by_cases hm : c ∈ s._clients
    · simp [hm]
    · by_cases he : s._clients = []
      · by_cases ho : c ∈ s._operators <;> simp [hm, he, ho]
      · simp [hm, he]
  refine ⟨?_, hinv, ?_⟩
  · rw [hasClient_iff, addClient_eq, addOperator_eq]
    by_cases hm : c ∈ s._clients
    · simp [hm]
    · by_cases he : s._clients = []
      · by_cases ho : c ∈ s._operators <;> simp [hm, he, ho]
      · simp [hm, he]
  · intro d
    simp [isInvited, hinv]

/-! ## Mode setters -/

/-- C10: `setInviteOnly(b)` sets the invite-only flag to `b` and changes nothing
else: the invite, member and operator lists, the name, topic and key and the
other mode flags and the limit are what they were, so `isInvited`, `hasClient`
and `isOperator` answer as before for every client. -/
theorem setInviteOnly_frame (s : Channel) (b : Bool) :
    isInviteOnly (setInviteOnly s b) = b ∧
    (setInviteOnly s b)._invited = s._invited ∧
    (setInviteOnly s b)._clients = s._clients ∧
    (setInviteOnly s b)._operators = s._operators ∧
    (setInviteOnly s b)._name = s._name ∧
    (setInviteOnly s b)._topic = s._topic ∧
    (setInviteOnly s b)._key = s._key ∧
    (setInviteOnly s b)._topicRestricted = s._topicRestricted ∧
    (setInviteOnly s b)._hasKey = s._hasKey ∧
    (setInviteOnly s b)._hasUserLimit = s._hasUserLimit ∧
    (setInviteOnly s b)._userLimit = s._userLimit ∧
    (∀ c, isInvited (setInviteOnly s b) c = isInvited s c ∧
      hasClient (setInviteOnly s b) c = hasClient s c ∧
      isOperator (setInviteOnly s b) c = isOperator s c) :=
  ⟨rfl, rfl, rfl, rfl, rfl, rfl, rfl, rfl, rfl, rfl, rfl, fun _ => ⟨rfl, rfl, rfl⟩⟩

end Channel

namespace Channel

/-! ## Channel key -/

/-- C11: after `setKey(k)` the key is `k` and `hasKey()` is true, after
`removeKey()` the key is empty and `hasKey()` is false; neither call changes the
members, the operators, the invited clients, the name, the topic or the other
mode flags and the limit. -/
theorem setKey_removeKey_spec (s : Channel) (k : String) :
    (getKey (setKey s k) = k ∧ hasKey (setKey s k) = true ∧
      setKey s k = { s with _key := k, _hasKey := true }) ∧
    (getKey (removeKey s) = "" ∧ hasKey (removeKey s) = false ∧
      removeKey s = { s with _key := "", _hasKey := false }) ∧
    ((setKey s k)._clients = s._clients ∧ (setKey s k)._operators = s._operators ∧
      (setKey s k)._invited = s._invited ∧ (setKey s k)._topic = s._topic ∧
      (setKey s k)._name = s._name ∧ (setKey s k)._inviteOnly = s._inviteOnly ∧
      (setKey s k)._topicRestricted = s._topicRestricted ∧
      (setKey s k)._hasUserLimit = s._hasUserLimit ∧
      (setKey s k)._userLimit = s._userLimit) ∧
    ((removeKey s)._clients = s._clients ∧ (removeKey s)._operators = s._operators ∧
      (removeKey s)._invited = s._invited ∧ (removeKey s)._topic = s._topic ∧
      (removeKey s)._name = s._name ∧ (removeKey s)._inviteOnly = s._inviteOnly ∧
      (removeKey s)._topicRestricted = s._topicRestricted ∧
      (removeKey s)._hasUserLimit = s._hasUserLimit ∧
      (removeKey s)._userLimit = s._userLimit) :=
  ⟨⟨rfl, rfl, rfl⟩, ⟨rfl, rfl, rfl⟩, ⟨rfl, rfl, rfl, rfl, rfl, rfl, rfl, rfl, rfl⟩,
    ⟨rfl, rfl, rfl, rfl, rfl, rfl, rfl, rfl, rfl⟩⟩

end Channel

namespace Client

/-! ## Client record -/

theorem step_fd (c : Client) (op : ClientOp) : (step c op)._fd = c._fd := by
  cases op <;> rfl

theorem step_hostname (c : Client) (op : ClientOp) : (step c op)._hostname = c._hostname := by
  cases op <;> rfl

theorem run_fd (ops : List ClientOp) : ∀ c : Client, (run c ops)._fd = c._fd := by
  induction ops with
  | nil => intro c; rfl
  | cons op ops ih => intro c; exact (ih (step c op)).trans (step_fd c op)

theorem run_hostname (ops : List ClientOp) :
    ∀ c : Client, (run c ops)._hostname = c._hostname := by
  induction ops with
  | nil => intro c; rfl
  | cons op ops ih => intro c; exact (ih (step c op)).trans (step_hostname c op)

theorem appendChunks_eq (chunks : List String) :
    ∀ c : Client, appendChunks c chunks = appendToBuffer c (joinChunks chunks) := by
  induction chunks with
  | nil =>
    intro c
    simp [appendChunks, joinChunks, appendToBuffer]
  | cons chunk chunks ih =>
    intro c
    simp [appendChunks, joinChunks, ih, appendToBuffer, String.append_assoc]

/-- C14: `getPrefix` is nickname, "!", username, "@", hostname; the nickname
and the username are the ones last set, and after any sequence of setter and
buffer calls the hostname is still the one given to the constructor. -/
theorem getPrefix_spec :
    (∀ c : Client, getPrefix c =
      getNickname c ++ "!" ++ getUsername c ++ "@" ++ getHostname c) ∧
    (∀ (c : Client) (n u : String),
      getPrefix (setUsername (setNickname c n) u) = n ++ "!" ++ u ++ "@" ++ getHostname c) ∧
    (∀ (fd : Int) (hostname : String) (ops : List ClientOp),
      getHostname (run (ctor fd hostname) ops) = hostname ∧
      getPrefix (run (ctor fd hostname) ops) =
        getNickname (run (ctor fd hostname) ops) ++ "!" ++
          getUsername (run (ctor fd hostname) ops) ++ "@" ++ hostname) := by
  refine ⟨fun _ => rfl, fun _ _ _ => rfl, ?_⟩
  intro fd hostname ops
  have hh : (run (ctor fd hostname) ops)._hostname = hostname :=
    run_hostname ops (ctor fd hostname)
  exact ⟨hh, by simp [getPrefix, getNickname, getUsername, hh]⟩

/-- C16: however a byte stream is cut into consecutive chunks, appending the
chunks in order leaves the client as one `appendToBuffer` of the whole stream
does, the buffer being the previous buffer followed by the stream; `clearBuffer`
then leaves the empty buffer. -/
theorem appendToBuffer_chunks (c : Client) (stream : String) (chunks : List String)
    (hsplit : joinChunks chunks = stream) :
    appendChunks c chunks = appendToBuffer c stream ∧
    getBuffer (appendChunks c chunks) = getBuffer c ++ stream ∧
    getBuffer (clearBuffer (appendChunks c chunks)) = "" := by
  subst hsplit
  refine ⟨appendChunks_eq chunks c, ?_, rfl⟩
  rw [appendChunks_eq chunks c]
  rfl

/-- Witness for C16: "NICK alice\r\n" arrives in three reads. -/
theorem appendToBuffer_chunks_witness :
    joinChunks ["NI", "CK al", "ice\r\n"] = "NICK alice\r\n" ∧
      getBuffer (appendChunks (ctor 4 "host") ["NI", "CK al", "ice\r\n"]) =
        "NICK alice\r\n" :=
  ⟨by decide, by
    rw [(appendToBuffer_chunks (ctor 4 "host") "NICK alice\r\n"
      ["NI", "CK al", "ice\r\n"] (by decide)).2.1]
    decide⟩

/-- C19: a new `Client(fd, hostname)` has the three flags false, the nickname,
username, realname and buffer empty, and `fd` and `hostname` as given; no
setter or buffer operation, and no sequence of them, changes `getFd`. -/
theorem ctor_initial_state (fd : Int) (hostname : String) :
    isAuthenticated (ctor fd hostname) = false ∧
    isRegistered (ctor fd hostname) = false ∧
    isWelcomeSent (ctor fd hostname) = false ∧
    getNickname (ctor fd hostname) = "" ∧
    getUsername (ctor fd hostname) = "" ∧
    getRealname (ctor fd hostname) = "" ∧
    getBuffer (ctor fd hostname) = "" ∧
    getFd (ctor fd hostname) = fd ∧
    getHostname (ctor fd hostname) = hostname ∧
    (∀ (c : Client) (op : ClientOp), getFd (step c op) = getFd c) ∧
    (∀ ops : List ClientOp, getFd (run (ctor fd hostname) ops) = fd) :=
  ⟨rfl, rfl, rfl, rfl, rfl, rfl, rfl, rfl, rfl, step_fd,
    fun ops => run_fd ops (ctor fd hostname)⟩

end Client

/-! ## Name validation -/

theorem char_le_iff (a b : Char) : a ≤ b ↔ a.toNat ≤ b.toNat := by
  rw [Char.le_def]
  exact Iff.rfl

namespace Utils

theorem letterTest_iff (c : Char) :
    ((c ≥ 'a' && c ≤ 'z') || (c ≥ 'A' && c ≤ 'Z')) = true ↔ asciiLetter c := by
  have h1 : ('a' : Char).toNat = 97 := rfl
  have h2 : ('z' : Char).toNat = 122 := rfl
  have h3 : ('A' : Char).toNat = 65 := rfl
  have h4 : ('Z' : Char).toNat = 90 := rfl
  simp only [asciiLetter, Bool.or_eq_true, Bool.and_eq_true, decide_eq_true_eq, ge_iff_le,
    char_le_iff, h1, h2, h3, h4]

theorem nicknameCharOk_iff (c : Char) :
    nicknameCharOk c = true ↔ asciiLetter c ∨ asciiDigit c ∨ c ∈ nicknameSymbols := by
  have h1 : ('a' : Char).toNat = 97 := rfl
  have h2 : ('z' : Char).toNat = 122 := rfl
  have h3 : ('A' : Char).toNat = 65 := rfl
  have h4 : ('Z' : Char).toNat = 90 := rfl
  have h5 : ('0' : Char).toNat = 48 := rfl
  have h6 : ('9' : Char).toNat = 57 := rfl
  unfold nicknameCharOk asciiLetter asciiDigit nicknameSymbols
  simp only [Bool.or_eq_true, Bool.and_eq_true, decide_eq_true_eq, ge_iff_le, char_le_iff,
    h1, h2, h3, h4, h5, h6, beq_iff_eq, List.mem_cons, List.mem_singleton, List.not_mem_nil,
    or_false, or_assoc]

theorem nicknameLoop_iff (l : List Char) :
    nicknameLoop l = true ↔ ∀ c ∈ l, nicknameCharOk c = true := by
  induction l with
  | nil => simp [nicknameLoop]
  | cons c rest ih =>
    cases hc : nicknameCharOk c
    · simp [nicknameLoop, hc]
    · simp [nicknameLoop, hc, ih]

theorem isValidNickname_iff (s : String) :
    isValidNickname s = true ↔
      (1 ≤ s.length ∧ s.length ≤ 30 ∧
        ∃ first rest, s.data = first :: rest ∧ asciiLetter first ∧
          ∀ c ∈ rest, asciiLetter c ∨ asciiDigit c ∨ c ∈ nicknameSymbols) := by
  have hlen : s.length = s.data.length := rfl
  rw [hlen]
  unfold isValidNickname
  cases hd : s.data with
  | nil => simp
  | cons first rest =>
    have hR : (∃ f r, first :: rest = f :: r ∧ asciiLetter f ∧
        ∀ c ∈ r, asciiLetter c ∨ asciiDigit c ∨ c ∈ nicknameSymbols) ↔
        (asciiLetter first ∧ ∀ c ∈ rest, nicknameCharOk c = true) := by
      constructor
      · rintro ⟨f, r, hfr, hl, hr⟩
        cases hfr
        exact ⟨hl, fun c hc => (nicknameCharOk_iff c).2 (hr c hc)⟩
      · rintro ⟨hl, hr⟩
        exact ⟨first, rest, rfl, hl, fun c hc => (nicknameCharOk_iff c).1 (hr c hc)⟩
    rw [hR, ← letterTest_iff first, ← nicknameLoop_iff]
    by_cases hlong : 29 < rest.length
    · have h30 : ¬ (rest.length + 1 ≤ 30) := by omega
      simp [hlong, h30]
    · have h30 : rest.length + 1 ≤ 30 := by omega
      cases ht : ((first ≥ 'a' && first ≤ 'z') || (first ≥ 'A' && first ≤ 'Z'))
      · simp [hlong, ht]
      · simp [hlong, ht, h30]

/-- C20: `isValidNickname(s)` is true exactly when `s` has between 1 and 30
characters, its first character is an ASCII letter and every later character is
an ASCII letter, a decimal digit or one of the nine symbols; so a nickname
whose first character is not a letter, or which contains a space, '#', '@', '!'
or ':', is rejected. -/
theorem isValidNickname_spec (s : String) :
    (isValidNickname s = true ↔
      (1 ≤ s.length ∧ s.length ≤ 30 ∧
        ∃ first rest, s.data = first :: rest ∧ asciiLetter first ∧
          ∀ c ∈ rest, asciiLetter c ∨ asciiDigit c ∨ c ∈ nicknameSymbols)) ∧
    (∀ first rest, s.data = first :: rest → ¬ asciiLetter first →
      isValidNickname s = false) ∧
    (∀ c ∈ s.data, c ∈ [' ', '#', '@', '!', ':'] → isValidNickname s = false) := by
  refine ⟨isValidNickname_iff s, ?_, ?_⟩
  · intro first rest hs hnot
    rw [← Bool.not_eq_true, isValidNickname_iff]
    rintro ⟨_, _, f, r, hfr, hl, _⟩
    rw [hs] at hfr
    simp only [List.cons.injEq] at hfr
    exact hnot (hfr.1 ▸ hl)
  · intro c hc hbad
    rw [← Bool.not_eq_true, isValidNickname_iff]
    rintro ⟨_, _, f, r, hfr, hl, hrest⟩
    have hok : asciiLetter c ∨ asciiDigit c ∨ c ∈ nicknameSymbols := by
      rw [hfr] at hc
      rcases List.mem_cons.1 hc with rfl | hc
      · exact Or.inl hl
      · exact hrest c hc
    simp only [List.mem_cons, List.mem_singleton, List.not_mem_nil, or_false] at hbad
    rcases hbad with rfl | rfl | rfl | rfl | rfl <;>
      simp [asciiLetter, asciiDigit, nicknameSymbols] at hok

end Utils

namespace Utils

theorem channelNameLoop_iff (l : List Char) :
    channelNameLoop l = true ↔
      ∀ c ∈ l, c ≠ ' ' ∧ c ≠ ',' ∧ c ≠ '\r' ∧ c ≠ '\n' ∧ c ≠ Char.ofNat 0 := by
  induction l with
  | nil => simp [channelNameLoop]
  | cons c rest ih =>
    by_cases hc : c = ' ' ∨ c = ',' ∨ c = '\r' ∨ c = '\n' ∨ c = Char.ofNat 0
    · have hif : (c == ' ' || c == ',' || c == '\r' || c == '\n' || c == Char.ofNat 0) = true := by
        simpa [or_assoc] using hc
      simp only [channelNameLoop, hif, if_true, Bool.false_eq_true, false_iff]
      intro h
      have := h c (List.mem_cons_self c rest)
      tauto
    · have hif : (c == ' ' || c == ',' || c == '\r' || c == '\n' || c == Char.ofNat 0) = false := by
        rw [← Bool.not_eq_true]
        simpa [or_assoc] using hc
      simp only [channelNameLoop, hif, Bool.false_eq_true, if_false, ih, List.forall_mem_cons]
      constructor
      · intro h
        exact ⟨by tauto, h⟩
      · intro h
        exact h.2

/-- C12 (as stated, refuted): the name "#a", TAB, "b" is accepted although a
control character (TAB, byte 0x09) follows the sigil. -/
theorem isValidChannelName_control_counterexample :
    isValidChannelName "#a\tb" = true ∧ '\t' ∈ ("#a\tb").data.tail ∧ controlChar '\t' ∧
      ¬ (∀ c ∈ ("#a\tb").data.tail, c ≠ ' ' ∧ c ≠ ',' ∧ ¬ controlChar c) := by
  have hctl : controlChar '\t' := Or.inl (by decide)
  refine ⟨by decide, by decide, hctl, ?_⟩
  intro h
  exact (h '\t' (by decide)).2.2 hctl

/-- C12 (amended): `isValidChannelName(s)` is true exactly when `s` begins with
'#', has at least one further character, and contains after the sigil no space,
no comma and none of the three control characters CR, LF and NUL; a name that
contains no control character at all after the sigil (and no space or comma)
is therefore accepted. -/
theorem isValidChannelName_spec (s : String) :
    (isValidChannelName s = true ↔
      (∃ rest, s.data = '#' :: rest ∧ 2 ≤ s.length ∧
        ∀ c ∈ rest, c ≠ ' ' ∧ c ≠ ',' ∧ c ≠ '\r' ∧ c ≠ '\n' ∧ c ≠ Char.ofNat 0)) ∧
    ((∃ rest, s.data = '#' :: rest ∧ 2 ≤ s.length ∧
        ∀ c ∈ rest, c ≠ ' ' ∧ c ≠ ',' ∧ ¬ controlChar c) → isValidChannelName s = true) := by
  have hlen : s.length = s.data.length := rfl
  have hiff : isValidChannelName s = true ↔
      (∃ rest, s.data = '#' :: rest ∧ 2 ≤ s.length ∧
        ∀ c ∈ rest, c ≠ ' ' ∧ c ≠ ',' ∧ c ≠ '\r' ∧ c ≠ '\n' ∧ c ≠ Char.ofNat 0) := by
    rw [hlen]
    unfold isValidChannelName
    cases hd : s.data with
    | nil => simp
    | cons first rest =>
      by_cases hf : first = '#'
      · subst hf
        by_cases h2 : rest.length + 1 < 2
        · have h2b : ¬ (2 ≤ rest.length + 1) := by omega
          simp [h2, h2b]
        · have h2b : 2 ≤ rest.length + 1 := by omega
          simp [h2, h2b, channelNameLoop_iff]
      · simp [hf]
  refine ⟨hiff, ?_⟩
  rintro ⟨rest, hs, h2, hall⟩
  refine hiff.2 ⟨rest, hs, h2, fun c hc => ?_⟩
  obtain ⟨h1, h2, h3⟩ := hall c hc
  refine ⟨h1, h2, ?_, ?_, ?_⟩
  · rintro rfl; exact h3 (Or.inl (by decide))
  · rintro rfl; exact h3 (Or.inl (by decide))
  · rintro rfl; exact h3 (Or.inl (by decide))

end Utils

namespace Utils

/-! ## Numeric replies -/

theorem decimal_one_digit (n : Nat) (h : n < 10) : decimal n = [digitChar n] := by
  simp [decimal, decimalDigits, h]

theorem decimal_two_digits (n : Nat) (h1 : 10 ≤ n) (h2 : n < 100) :
    decimal n = [digitChar (n / 10), digitChar (n % 10)] := by
  obtain ⟨m, rfl⟩ : ∃ m, n = m + 1 := ⟨n - 1, by omega⟩
  have hn : ¬ (m + 1 < 10) := by omega
  have hq : (m + 1) / 10 < 10 := by omega
  simp [decimal, decimalDigits, hn, hq]

theorem decimal_three_digits (n : Nat) (h1 : 100 ≤ n) (h2 : n < 1000) :
    decimal n = [digitChar (n / 100), digitChar (n / 10 % 10), digitChar (n % 10)] := by
  obtain ⟨m, rfl⟩ : ∃ m, n = m + 2 := ⟨n - 2, by omega⟩
  have hn : ¬ (m + 2 < 10) := by omega
  have hq : ¬ ((m + 2) / 10 < 10) := by omega
  have hr : (m + 2) / 10 / 10 < 10 := by omega
  have hd : (m + 2) / 10 / 10 = (m + 2) / 100 := by omega
  simp [decimal, decimalDigits, hn, hq, hr]
  rw [hd]

theorem streamInt_three_digits (n : Nat) (h : n < 1000) :
    streamInt '0' 3 (n : Int) = threeDigits n := by
  have hneg : ¬ ((n : Int) < 0) := by omega
  have hz : digitChar 0 = '0' := rfl
  simp only [streamInt, hneg, if_false, Int.natAbs_ofNat, threeDigits]
  by_cases h10 : n < 10
  · have e1 : n / 100 = 0 := by omega
    have e2 : n / 10 % 10 = 0 := by omega
    have e3 : n % 10 = n := by omega
    rw [decimal_one_digit n h10, e1, e2, e3, hz]
    rfl
  · by_cases h100 : n < 100
    · have e1 : n / 100 = 0 := by omega
      have e2 : n / 10 % 10 = n / 10 := by omega
      rw [decimal_two_digits n (by omega) h100, e1, e2, hz]
      rfl
    · rw [decimal_three_digits n (by omega) h]
      rfl

/-- C13: for a code between 0 and 999, `formatReply(serverName, code, target,
message)` is ":" serverName " " followed by the code written with exactly three
decimal digits (hundreds, tens, units), " ", the target, " " and the message. -/
theorem formatReply_spec (serverName target message : String) (code : Int)
    (h0 : 0 ≤ code) (h1 : code ≤ 999) :
    formatReply serverName code target message =
      ":" ++ serverName ++ " " ++ threeDigits code.toNat ++ " " ++ target ++ " " ++ message ∧
    (threeDigits code.toNat).length = 3 ∧
    (∀ c ∈ (threeDigits code.toNat).data, asciiDigit c) := by
  obtain ⟨n, rfl⟩ := Int.eq_ofNat_of_zero_le h0
  have hn : n < 1000 := by omega
  refine ⟨?_, rfl, ?_⟩
  · simp only [formatReply, Int.toNat_ofNat, streamInt_three_digits n hn]
  · have hdig : ∀ d, d < 10 → asciiDigit (digitChar d) := by
      intro d hd
      unfold asciiDigit
      interval_cases d <;> decide
    intro c hc
    simp only [Int.toNat_ofNat, threeDigits, List.mem_cons, List.mem_singleton,
      List.not_mem_nil, or_false] at hc
    rcases hc with rfl | rfl | rfl
    · exact hdig _ (by omega)
    · exact hdig _ (by omega)
    · exact hdig _ (by omega)

/-- Witness for C13: the welcome reply, code 1. -/
theorem formatReply_spec_witness :
    (0 : Int) ≤ 1 ∧ (1 : Int) ≤ 999 ∧
      formatReply "irc.local" 1 "alice" ":Welcome" = ":irc.local 001 alice :Welcome" :=
  ⟨by decide, by decide, by
    rw [(formatReply_spec "irc.local" "alice" ":Welcome" 1 (by decide) (by decide)).1]
    decide⟩

end Utils

namespace Server

/-! ## Echo server -/

/-- C15 (as stated, refuted): the connection at index 1 of `threeSockets`
receives "NICK alice", CR, LF, "US"; the unterminated "US" is not kept: the
whole data is echoed, the buffer is empty afterwards, and the next read,
"ER a", is echoed on its own, not joined with "US". -/
theorem handleClient_buffer_counterexample :
    handleClient (RecvResult.data "NICK alice\r\nUS") threeSockets 4 1 =
        some (threeSockets, [SysCall.send 4 "Server: NICK alice\r\nUS"]) ∧
      threeSockets._client_buffers.get? 1 = some "" ∧
      handleClient (RecvResult.data "ER a") threeSockets 4 1 =
        some (threeSockets, [SysCall.send 4 "Server: ER a"]) := by
  decide

/-- C15 (amended): when `handleClient` receives data on a connection, whether
or not the data ends with a terminated line, it sends back "Server: " followed
by the buffer and the received bytes (up to the first NUL) and clears the
buffer: after it returns that connection's buffer is empty, nothing is kept for
the next read, and the other buffers and the descriptors are unchanged. -/
theorem handleClient_data (s : Server) (bytes : String) (client_fd : Int) (index : Nat)
    (hb : 0 < bytes.length) (hi : index < s._client_buffers.length) :
    ∃ (s1 : Server) (old : String),
      s._client_buffers.get? index = some old ∧
      handleClient (RecvResult.data bytes) s client_fd index =
        some (s1, [SysCall.send client_fd ("Server: " ++ (old ++ cString bytes))]) ∧
      s1._client_buffers.get? index = some "" ∧
      (∀ j, j ≠ index → s1._client_buffers.get? j = s._client_buffers.get? j) ∧
      s1._client_buffers.length = s._client_buffers.length ∧
      s1._poll_fds = s._poll_fds ∧ s1._server_fd = s._server_fd := by
  have hpos : ¬ ((RecvResult.data bytes).bytesReceived ≤ 0) := by
    simp only [RecvResult.bytesReceived]
    omega
  obtain ⟨old, hold⟩ : ∃ old, s._client_buffers.get? index = some old :=
    ⟨s._client_buffers.get ⟨index, hi⟩, List.get?_eq_get hi⟩
  refine ⟨{ s with _client_buffers := s._client_buffers.set index "" }, old, hold, ?_, ?_,
    ?_, ?_, rfl, rfl⟩
  · simp only [handleClient, hpos, if_false, hold]
  · simp [List.getElem?_set, hi]
  · intro j hj
    simp [List.getElem?_set, Ne.symm hj]
  · simp

/-- Witness for C15: the second connection of `threeSockets` receives "NICK al". -/
theorem handleClient_data_witness :
    0 < ("NICK al").length ∧ 1 < threeSockets._client_buffers.length ∧
      ∃ s1 : Server,
        handleClient (RecvResult.data "NICK al") threeSockets 4 1 =
          some (s1, [SysCall.send 4 "Server: NICK al"]) ∧
        s1._client_buffers.get? 1 = some "" :=
  ⟨by decide, by decide, by
    obtain ⟨s1, old, hold, h, hclear, _⟩ :=
      handleClient_data threeSockets "NICK al" 4 1 (by decide) (by decide)
    have ho : old = "" := by
      have h0 : threeSockets._client_buffers.get? 1 = some "" := by decide
      rw [h0] at hold
      exact (Option.some.inj hold).symm
    subst ho
    refine ⟨s1, ?_, hclear⟩
    rw [h]
    rfl⟩

/-- C18 (the code at the failing input): `poll` reports descriptors 4 and 5
readable and the read on 4 finds the peer gone. The pass ends (for any fuel of
three or more) having called `handleClient` for descriptor 4 only: erasing
entry 1 moved descriptor 5 to index 1 and the loop went on at index 2, so
descriptor 5, reported ready and still watched, was not served. -/
theorem servePass_skips_ready_descriptor :
    (⟨5, POLLIN, POLLIN⟩ : PollFd) ∈ bothClientsReady._poll_fds ∧
    (POLLIN &&& POLLIN != 0) = true ∧
    (∀ n : Nat, servePass firstPeerGone (n + 3) bothClientsReady =
      some { server := { threeSockets with
                           _poll_fds := [⟨3, POLLIN, 0⟩, ⟨5, POLLIN, POLLIN⟩],
                           _client_buffers := ["", ""] },
             served := [Served.client 4 1],
             calls := [SysCall.close 4] }) ∧
    (∀ index : Nat, Served.client 5 index ∉ [Served.client 4 1]) := by
  refine ⟨by decide, by decide, fun n => rfl, ?_⟩
  intro index h
  simp at h

end Server

namespace Channel

/-! ## No duplicates -/

/-- C23: in every reachable state no client is listed twice as member, as
operator or as invited client; so `addClient(c)` for a client that is already a
member leaves the whole state unchanged, and `getClientCount()` is the number
of distinct members. -/
theorem reachable_no_duplicates (s : Channel) (hs : Reachable s) :
    (∀ c, s._clients.count c ≤ 1) ∧
    (∀ c, s._operators.count c ≤ 1) ∧
    (∀ c, s._invited.count c ≤ 1) ∧
    (∀ c, hasClient s c = true → addClient s c = s) ∧
    getClientCount s = s._clients.dedup.length ∧
    getClientCount s = s._clients.toFinset.card := by
  obtain ⟨hc, ho, hi⟩ := reachable_noDuplicates s hs
  refine ⟨List.nodup_iff_count_le_one.1 hc, List.nodup_iff_count_le_one.1 ho,
    List.nodup_iff_count_le_one.1 hi, ?_, ?_, ?_⟩
  · intro c hmem
    simp [addClient, hmem]
  · rw [getClientCount, hc.dedup]
  · rw [getClientCount, List.toFinset_card_of_nodup hc]

/-- Witness for C23: `demoChannel` and its member bob. -/
theorem reachable_no_duplicates_witness :
    Reachable demoChannel ∧ addClient demoChannel 2 = demoChannel ∧
      getClientCount demoChannel = 3 :=
  have hr : Reachable demoChannel :=
    ⟨"#lounge", [.addClient 1, .addInvited 3, .addClient 2, .addClient 3,
      .setTopicRestricted true], rfl⟩
  ⟨hr, (reachable_no_duplicates demoChannel hr).2.2.2.1 2 (by decide), by decide⟩

end Channel

/-! ## Case conversion -/

theorem char_range_cases (c : Char) (lo hi : Nat) (hlo : lo ≤ c.toNat) (hhi : c.toNat ≤ hi) :
    ∃ n, lo ≤ n ∧ n ≤ hi ∧ c = Char.ofNat n :=
  ⟨c.toNat, hlo, hhi, (Char.ofNat_toNat c).symm⟩

theorem lowerRange_iff (c : Char) :
    (c ≥ 'a' && c ≤ 'z') = true ↔ (97 ≤ c.toNat ∧ c.toNat ≤ 122) := by
  have h1 : ('a' : Char).toNat = 97 := rfl
  have h2 : ('z' : Char).toNat = 122 := rfl
  simp only [Bool.and_eq_true, decide_eq_true_eq, ge_iff_le, char_le_iff, h1, h2]

theorem upperRange_iff (c : Char) :
    (c ≥ 'A' && c ≤ 'Z') = true ↔ (65 ≤ c.toNat ∧ c.toNat ≤ 90) := by
  have h1 : ('A' : Char).toNat = 65 := rfl
  have h2 : ('Z' : Char).toNat = 90 := rfl
  simp only [Bool.and_eq_true, decide_eq_true_eq, ge_iff_le, char_le_iff, h1, h2]

theorem upperChar_of_not_lower (c : Char) (h : ¬ (97 ≤ c.toNat ∧ c.toNat ≤ 122)) :
    upperChar c = c := by
  have : (c ≥ 'a' && c ≤ 'z') = false := by
    rw [← Bool.not_eq_true, lowerRange_iff]; exact h
  simp [upperChar, this]

theorem lowerChar_of_not_upper (c : Char) (h : ¬ (65 ≤ c.toNat ∧ c.toNat ≤ 90)) :
    lowerChar c = c := by
  have : (c ≥ 'A' && c ≤ 'Z') = false := by
    rw [← Bool.not_eq_true, upperRange_iff]; exact h
  simp [lowerChar, this]

theorem upperChar_lower_range (c : Char) (h : 97 ≤ c.toNat ∧ c.toNat ≤ 122) :
    (upperChar c).toNat + 32 = c.toNat ∧ lowerChar (upperChar c) = c ∧
      upperChar (upperChar c) = upperChar c ∧ lowerChar c = c := by
  obtain ⟨n, h1, h2, rfl⟩ := char_range_cases c 97 122 h.1 h.2
  interval_cases n <;> decide

theorem lowerChar_upper_range (c : Char) (h : 65 ≤ c.toNat ∧ c.toNat ≤ 90) :
    (lowerChar c).toNat = c.toNat + 32 ∧ upperChar (lowerChar c) = c ∧
      lowerChar (lowerChar c) = lowerChar c ∧ upperChar c = c := by
  obtain ⟨n, h1, h2, rfl⟩ := char_range_cases c 65 90 h.1 h.2
  interval_cases n <;> decide

theorem char_eq_of_toNat_eq (c d : Char) (h : c.toNat = d.toNat) : c = d := by
  rw [← Char.ofNat_toNat c, ← Char.ofNat_toNat d, h]

theorem upperChar_idem (c : Char) : upperChar (upperChar c) = upperChar c := by
  by_cases h : 97 ≤ c.toNat ∧ c.toNat ≤ 122
  · exact (upperChar_lower_range c h).2.2.1
  · rw [upperChar_of_not_lower c h, upperChar_of_not_lower c h]

theorem lowerChar_idem (c : Char) : lowerChar (lowerChar c) = lowerChar c := by
  by_cases h : 65 ≤ c.toNat ∧ c.toNat ≤ 90
  · exact (lowerChar_upper_range c h).2.2.1
  · rw [lowerChar_of_not_upper c h, lowerChar_of_not_upper c h]

theorem upperChar_lowerChar (c : Char) : upperChar (lowerChar c) = upperChar c := by
  by_cases h : 65 ≤ c.toNat ∧ c.toNat ≤ 90
  · rw [(lowerChar_upper_range c h).2.1, (lowerChar_upper_range c h).2.2.2]
  · rw [lowerChar_of_not_upper c h]

theorem lowerChar_upperChar (c : Char) : lowerChar (upperChar c) = lowerChar c := by
  by_cases h : 97 ≤ c.toNat ∧ c.toNat ≤ 122
  · rw [(upperChar_lower_range c h).2.1, (upperChar_lower_range c h).2.2.2]
  · rw [upperChar_of_not_lower c h]

theorem case_of_not_letter (c : Char) (h : ¬ asciiLetter c) :
    upperChar c = c ∧ lowerChar c = c :=
  ⟨upperChar_of_not_lower c (fun hl => h (Or.inl hl)),
    lowerChar_of_not_upper c (fun hu => h (Or.inr hu))⟩

theorem upperChar_eq_of_shift (c d : Char) (hc : asciiLetter c) (hd : asciiLetter d)
    (hs : c.toNat + 32 = d.toNat) : upperChar c = upperChar d := by
  have hcu : 65 ≤ c.toNat ∧ c.toNat ≤ 90 := by
    rcases hc with hc | hc
    · rcases hd with hd | hd <;> omega
    · exact hc
  have hdl : lowerChar c = d :=
    char_eq_of_toNat_eq _ _ ((lowerChar_upper_range c hcu).1.trans hs)
  rw [← hdl, (lowerChar_upper_range c hcu).2.1, (lowerChar_upper_range c hcu).2.2.2]

theorem upperChar_eq_of_sameLetter (c d : Char) (h : sameLetter c d) :
    upperChar c = upperChar d := by
  rcases h with rfl | ⟨hc, hd, hs | hs⟩
  · rfl
  · exact upperChar_eq_of_shift c d hc hd hs
  · exact (upperChar_eq_of_shift d c hd hc hs).symm

namespace Utils

theorem toUpperLoop_eq_map (l : List Char) : toUpperLoop l = l.map upperChar := by
  induction l with
  | nil => rfl
  | cons c rest ih =>
    show _ :: toUpperLoop rest = upperChar c :: rest.map upperChar
    rw [ih]
    rfl

theorem toLowerLoop_eq_map (l : List Char) : toLowerLoop l = l.map lowerChar := by
  induction l with
  | nil => rfl
  | cons c rest ih =>
    show _ :: toLowerLoop rest = lowerChar c :: rest.map lowerChar
    rw [ih]
    rfl

theorem map_upperChar_of_sameLetter (l1 l2 : List Char)
    (h : List.Forall₂ sameLetter l1 l2) : l1.map upperChar = l2.map upperChar := by
  induction h with
  | nil => rfl
  | cons hcd _ ih => simp [upperChar_eq_of_sameLetter _ _ hcd, ih]

/-- C25: `toUpper` and `toLower` keep the length and leave every character
that is not an ASCII letter where and as it is; each is idempotent;
`toUpper(toLower(s)) = toUpper(s)` and `toLower(toUpper(s)) = toLower(s)`; two
strings that differ only in the case of ASCII letters have the same `toUpper`. -/
theorem case_conversion (s : String) :
    (toUpper s).length = s.length ∧ (toLower s).length = s.length ∧
    (∀ (i : Nat) (c : Char), s.data[i]? = some c → ¬ asciiLetter c →
      (toUpper s).data[i]? = some c ∧ (toLower s).data[i]? = some c) ∧
    toUpper (toUpper s) = toUpper s ∧ toLower (toLower s) = toLower s ∧
    toUpper (toLower s) = toUpper s ∧ toLower (toUpper s) = toLower s ∧
    (∀ t : String, differOnlyInCase s t → toUpper s = toUpper t) := by
  refine ⟨?_, ?_, ?_, ?_, ?_, ?_, ?_, ?_⟩
  · show (toUpperLoop s.data).length = s.data.length
    rw [toUpperLoop_eq_map, List.length_map]
  · show (toLowerLoop s.data).length = s.data.length
    rw [toLowerLoop_eq_map, List.length_map]
  · intro i c hi hc
    obtain ⟨hu, hl⟩ := case_of_not_letter c hc
    simp [toUpper, toLower, toUpperLoop_eq_map, toLowerLoop_eq_map, hi, hu, hl]
  · have h : upperChar ∘ upperChar = upperChar := funext upperChar_idem
    simp [toUpper, toUpperLoop_eq_map, h]
  · have h : lowerChar ∘ lowerChar = lowerChar := funext lowerChar_idem
    simp [toLower, toLowerLoop_eq_map, h]
  · have h : upperChar ∘ lowerChar = upperChar := funext upperChar_lowerChar
    simp [toUpper, toLower, toUpperLoop_eq_map, toLowerLoop_eq_map, h]
  · have h : lowerChar ∘ upperChar = lowerChar := funext lowerChar_upperChar
    simp [toUpper, toLower, toUpperLoop_eq_map, toLowerLoop_eq_map, h]
  · intro t ht
    have hmap := map_upperChar_of_sameLetter s.data t.data ht
    simp [toUpper, toUpperLoop_eq_map, hmap]

end Utils

namespace Utils

/-! ## Trimming -/

theorem findFirstNotOf_of_all (set : List Char) (l : List Char) (h : ∀ c ∈ l, c ∈ set) :
    findFirstNotOf set l = none := by
  induction l with
  | nil => rfl
  | cons c rest ih =>
    have hc : c ∈ set := h c (by simp)
    simp [findFirstNotOf, hc, ih (fun d hd => h d (by simp [hd]))]

theorem findLastNotOf_of_all (set : List Char) (l : List Char) (h : ∀ c ∈ l, c ∈ set) :
    findLastNotOf set l = none := by
  induction l with
  | nil => rfl
  | cons c rest ih =>
    have hc : c ∈ set := h c (by simp)
    simp [findLastNotOf, hc, ih (fun d hd => h d (by simp [hd]))]

theorem findFirstNotOf_of_decomposition (set : List Char) (pre : List Char) (a : Char)
    (rest : List Char) (hpre : ∀ c ∈ pre, c ∈ set) (ha : a ∉ set) :
    findFirstNotOf set (pre ++ a :: rest) = some pre.length := by
  induction pre with
  | nil =>
    simp [findFirstNotOf, ha]
  | cons c pre ih =>
    have hc : c ∈ set := hpre c (by simp)
    simp [findFirstNotOf, hc, ih (fun d hd => hpre d (by simp [hd]))]

theorem findLastNotOf_of_decomposition (set : List Char) (init : List Char) (b : Char)
    (suf : List Char) (hsuf : ∀ c ∈ suf, c ∈ set) (hb : b ∉ set) :
    findLastNotOf set (init ++ b :: suf) = some init.length := by
  induction init with
  | nil =>
    simp [findLastNotOf, findLastNotOf_of_all set suf hsuf, hb]
  | cons c init ih =>
    simp [findLastNotOf, ih]

theorem trimChars_of_all (l : List Char) (h : ∀ c ∈ l, c ∈ trimSet) : trimChars l = [] := by
  cases l with
  | nil => rfl
  | cons c rest => simp [trimChars, findFirstNotOf_of_all trimSet _ h]

theorem trimChars_of_decomposition (pre core suf : List Char)
    (hpre : ∀ c ∈ pre, c ∈ trimSet) (hsuf : ∀ c ∈ suf, c ∈ trimSet)
    (hhead : ∃ a rest, core = a :: rest ∧ a ∉ trimSet)
    (hlast : ∃ init b, core = init ++ [b] ∧ b ∉ trimSet) :
    trimChars (pre ++ core ++ suf) = core := by
  obtain ⟨a, rest, hcore1, ha⟩ := hhead
  obtain ⟨init, b, hcore2, hb⟩ := hlast
  have hne : (pre ++ core ++ suf).isEmpty = false := by
    simp [hcore1]
  have hfirst : findFirstNotOf trimSet (pre ++ core ++ suf) = some pre.length := by
    have := findFirstNotOf_of_decomposition trimSet pre a (rest ++ suf) hpre ha
    simpa [hcore1] using this
  have hlast : findLastNotOf trimSet (pre ++ core ++ suf) = some (pre ++ init).length := by
    have := findLastNotOf_of_decomposition trimSet (pre ++ init) b suf hsuf hb
    simpa [hcore2] using this
  have hlen : (pre ++ init).length - pre.length + 1 = core.length := by
    simp [hcore2]
  simp only [trimChars, hne, Bool.false_eq_true, if_false, hfirst, hlast, substr, hlen]
  rw [List.append_assoc, List.drop_left' rfl, List.take_left' rfl]

theorem trim_decomposition (l : List Char) :
    (∀ c ∈ l, c ∈ trimSet) ∨
    ∃ pre core suf, l = pre ++ core ++ suf ∧ (∀ c ∈ pre, c ∈ trimSet) ∧
      (∀ c ∈ suf, c ∈ trimSet) ∧ (∃ a rest, core = a :: rest ∧ a ∉ trimSet) ∧
      (∃ init b, core = init ++ [b] ∧ b ∉ trimSet) := by
  induction l with
  | nil => left; simp
  | cons x l ih =>
    by_cases hx : x ∈ trimSet
    · rcases ih with hall | ⟨pre, core, suf, hl, hpre, hsuf, hhead, hlast⟩
      · left
        intro c hc
        rcases List.mem_cons.1 hc with rfl | hc
        · exact hx
        · exact hall c hc
      · right
        refine ⟨x :: pre, core, suf, by simp [hl], ?_, hsuf, hhead, hlast⟩
        intro c hc
        rcases List.mem_cons.1 hc with rfl | hc
        · exact hx
        · exact hpre c hc
    · right
      rcases ih with hall | ⟨pre, core, suf, hl, hpre, hsuf, hhead, hlast⟩
      · exact ⟨[], [x], l, by simp, by simp, hall, ⟨x, [], rfl, hx⟩, ⟨[], x, rfl, hx⟩⟩
      · obtain ⟨init, b, hcore, hb⟩ := hlast
        refine ⟨[], x :: (pre ++ core), suf, by simp [hl], by simp, hsuf,
          ⟨x, pre ++ core, rfl, hx⟩, ⟨x :: (pre ++ init), b, by simp [hcore], hb⟩⟩

end Utils

namespace Utils

theorem trimChars_facts (l : List Char) :
    (∃ pre suf, l = pre ++ trimChars l ++ suf ∧ (∀ c ∈ pre, c ∈ trimSet) ∧
      (∀ c ∈ suf, c ∈ trimSet)) ∧
    (trimChars l = [] ↔ ∀ c ∈ l, c ∈ trimSet) ∧
    (∀ a, (trimChars l).head? = some a → a ∉ trimSet) ∧
    (∀ b, (trimChars l).getLast? = some b → b ∉ trimSet) ∧
    trimChars (trimChars l) = trimChars l ∧
    trimChars l =
      (l.dropWhile (fun c => trimSet.contains c)).rdropWhile (fun c => trimSet.contains c) := by
  rcases trim_decomposition l with hall | ⟨pre, core, suf, hl, hpre, hsuf, hhead, hlast⟩
  · have ht : trimChars l = [] := trimChars_of_all l hall
    refine ⟨⟨l, [], by simp [ht], hall, by simp⟩, ⟨fun _ => hall, fun _ => ht⟩, by simp [ht],
      by simp [ht], by rw [ht]; rfl, ?_⟩
    have hd : l.dropWhile (fun c => trimSet.contains c) = [] :=
      List.dropWhile_eq_nil_iff.2 (fun c hc => by simpa using hall c hc)
    rw [ht, hd]
    rfl
  · have ht : trimChars l = core := by
      rw [hl]; exact trimChars_of_decomposition pre core suf hpre hsuf hhead hlast
    have hidem : trimChars core = core := by
      have := trimChars_of_decomposition [] core [] (by simp) (by simp) hhead hlast
      simpa using this
    obtain ⟨a, rest, hcore1, ha⟩ := hhead
    obtain ⟨init, b, hcore2, hb⟩ := hlast
    refine ⟨⟨pre, suf, by rw [ht, hl], hpre, hsuf⟩, ?_, ?_, ?_, by rw [ht, hidem], ?_⟩
    · rw [ht]
      constructor
      · intro h
        rw [hcore1] at h
        exact absurd h (List.cons_ne_nil a rest)
      · intro h
        exact absurd (h a (by simp [hl, hcore1])) ha
    · intro x hx
      rw [ht, hcore1] at hx
      simp only [List.head?_cons, Option.some.injEq] at hx
      exact hx ▸ ha
    · intro x hx
      rw [ht, hcore2, List.getLast?_concat] at hx
      simp only [Option.some.injEq] at hx
      exact hx ▸ hb
    · have hpa : ¬ (fun c => trimSet.contains c) a = true := by simpa using ha
      have hpb : ¬ (fun c => trimSet.contains c) b = true := by simpa using hb
      have hd : l.dropWhile (fun c => trimSet.contains c) = core ++ suf := by
        rw [hl, List.append_assoc,
          List.dropWhile_append_of_pos (fun c hc => by simpa using hpre c hc), hcore1,
          List.cons_append, List.dropWhile_cons_of_neg hpa]
      rw [ht, hd, List.rdropWhile, List.reverse_append,
        List.dropWhile_append_of_pos (fun c hc => by
          simpa using hsuf c (List.mem_reverse.1 hc)),
        hcore2, List.reverse_append, List.reverse_singleton, List.singleton_append,
        List.dropWhile_cons_of_neg hpb]
      simp

/-- C26: `trim(s)` is the part of `s` left when the longest prefix and the
longest suffix made of space, tab, carriage return and newline are removed:
`s` is a run of such characters, `trim(s)`, and another such run; the result is
empty exactly when `s` has only such characters, and otherwise neither its
first nor its last character is one of them; `trim(trim(s)) = trim(s)`. -/
theorem trim_spec (s : String) :
    (∃ pre suf : List Char, s.data = pre ++ (trim s).data ++ suf ∧
      (∀ c ∈ pre, c ∈ trimSet) ∧ (∀ c ∈ suf, c ∈ trimSet)) ∧
    ((trim s).data = [] ↔ ∀ c ∈ s.data, c ∈ trimSet) ∧
    (∀ a, (trim s).data.head? = some a → a ∉ trimSet) ∧
    (∀ b, (trim s).data.getLast? = some b → b ∉ trimSet) ∧
    trim (trim s) = trim s ∧
    (trim s).data =
      (s.data.dropWhile (fun c => trimSet.contains c)).rdropWhile
        (fun c => trimSet.contains c) := by
  obtain ⟨h1, h2, h3, h4, h5, h6⟩ := trimChars_facts s.data
  exact ⟨h1, h2, h3, h4, congrArg String.mk h5, h6⟩

end Utils

/-! ## Splitting -/

theorem piecesIn_cons_delimiter (d : Char) (ps : List (List Char)) (l : List Char)
    (h : piecesIn d ps l) : piecesIn d ps (d :: l) := by
  cases ps with
  | nil =>
    intro c hc
    rcases List.mem_cons.1 hc with rfl | hc
    · rfl
    · exact h c hc
  | cons p ps =>
    obtain ⟨k, rest, hl, hrest⟩ := h
    exact ⟨k + 1, rest, by simp [hl, List.replicate_succ], hrest⟩

theorem dropWhile_ne_cases (d : Char) (l : List Char) :
    l.dropWhile (fun c => c != d) = [] ∨ ∃ t, l.dropWhile (fun c => c != d) = d :: t := by
  induction l with
  | nil => left; rfl
  | cons x xs ih =>
    by_cases hx : x = d
    · right
      exact ⟨xs, by simp [hx]⟩
    · have : (x != d) = true := by simpa using hx
      simpa [List.dropWhile_cons, this] using ih

theorem takeWhile_ne_not_mem (d : Char) (l : List Char) :
    d ∉ l.takeWhile (fun c => c != d) := by
  intro h
  have := List.mem_takeWhile_imp h
  simp at this

namespace Utils

theorem splitLoop_spec (d : Char) :
    ∀ (fuel : Nat) (l : List Char) (result : List String), l.length < fuel →
      ∃ ps : List (List Char),
        splitLoop d fuel l result = some (result ++ ps.map String.mk) ∧
        (∀ p ∈ ps, p ≠ [] ∧ d ∉ p) ∧ piecesIn d ps l ∧
        ps.flatten = l.filter (fun c => c != d) := by
  intro fuel
  induction fuel with
  | zero => intro l result h; exact absurd h (Nat.not_lt_zero _)
  | succ fuel ih =>
    intro l result hlen
    cases hl : l with
    | nil =>
      refine ⟨[], by simp [splitLoop, getline], by simp, ?_, by simp⟩
      intro c hc
      simp at hc
    | cons x xs =>
      have hsplit : (x :: xs).takeWhile (fun c => c != d) ++
          (x :: xs).dropWhile (fun c => c != d) = x :: xs :=
        List.takeWhile_append_dropWhile _ _
      generalize hitem : (x :: xs).takeWhile (fun c => c != d) = item at hsplit
      generalize hdw : (x :: xs).dropWhile (fun c => c != d) = dw at hsplit
      have hnod : d ∉ item := hitem ▸ takeWhile_ne_not_mem d (x :: xs)
      have hfilter_item : item.filter (fun c => c != d) = item := by
        rw [List.filter_eq_self]
        intro c hc
        have : c ≠ d := fun e => hnod (e ▸ hc)
        simpa using this
      have hlens : item.length + dw.length = xs.length + 1 := by
        have := congrArg List.length hsplit
        simpa using this
      have hfuel : (dw.drop 1).length < fuel := by
        have h1 : xs.length + 1 < fuel + 1 := by simpa [hl] using hlen
        have h2 : (dw.drop 1).length ≤ xs.length := by
          rw [List.length_drop]
          cases hd : dw with
          | nil => simp
          | cons y ys => rw [hd] at hlens; simp at hlens ⊢; omega
        omega
      have hstep : splitLoop d (fuel + 1) (x :: xs) result =
          splitLoop d fuel (dw.drop 1)
            (if !item.isEmpty then result ++ [String.mk item] else result) := by
        simp only [splitLoop, getline, hitem, hdw]
      obtain ⟨ps, hrun, hpieces, hin, hjoin⟩ :=
        ih (dw.drop 1) (if !item.isEmpty then result ++ [String.mk item] else result) hfuel
      have hdwc := dropWhile_ne_cases d (x :: xs)
      rw [hdw] at hdwc
      by_cases hempty : item = []
      · subst hempty
        have hdw2 : dw = x :: xs := by simpa using hsplit
        obtain ⟨t, ht⟩ : ∃ t, dw = d :: t := by
          rcases hdwc with h | h
          · rw [hdw2] at h; exact absurd h (List.cons_ne_nil _ _)
          · exact h
        have hxs : x :: xs = d :: t := hdw2 ▸ ht
        have hdrop : dw.drop 1 = t := by simp [ht]
        rw [hdrop] at hrun hin hjoin
        refine ⟨ps, ?_, hpieces, ?_, ?_⟩
        · rw [hstep, hdrop]
          simpa using hrun
        · rw [hxs]; exact piecesIn_cons_delimiter d ps t hin
        · rw [hxs, hjoin]; simp
      · have hne : (!item.isEmpty) = true := by
          cases item with
          | nil => exact absurd rfl hempty
          | cons _ _ => rfl
        rw [hne, if_pos rfl] at hrun
        refine ⟨item :: ps, ?_, ?_, ?_, ?_⟩
        · rw [hstep, hne, if_pos rfl, hrun]
          simp
        · intro p hp
          rcases List.mem_cons.1 hp with rfl | hp
          · exact ⟨hempty, hnod⟩
          · exact hpieces p hp
        · refine ⟨0, dw, by simpa using hsplit.symm, ?_⟩
          rcases hdwc with h | ⟨t, ht⟩
          · left
            refine ⟨h, ?_⟩
            have hj : ps.flatten = [] := by rw [hjoin, h]; rfl
            cases ps with
            | nil => rfl
            | cons p ps' =>
              have hp := (hpieces p (by simp)).1
              simp at hj
              exact absurd hj.1 hp
          · right
            refine ⟨t, ht, ?_⟩
            simpa [ht] using hin
        · rw [← hsplit, List.filter_append, hfilter_item, List.flatten_cons, hjoin]
          congr 1
          rcases hdwc with h | ⟨t, ht⟩
          · simp [h]
          · simp [ht]

end Utils

namespace Utils

/-- C22: `split(str, d)` returns, for every string and delimiter, pieces that
are non-empty and free of `d`, that lie in `str` in their order, separated by
runs of `d`, and whose concatenation is `str` with every `d` removed;
"hello world test" split on a space gives "hello", "world", "test". -/
theorem split_spec :
    (∀ (str : String) (d : Char), ∃ pieces : List String,
      split str d = some pieces ∧
      (∀ p ∈ pieces, p.data ≠ [] ∧ d ∉ p.data) ∧
      piecesIn d (pieces.map String.data) str.data ∧
      (pieces.map String.data).flatten = str.data.filter (fun c => c != d)) ∧
    split "hello world test" ' ' = some ["hello", "world", "test"] := by
  refine ⟨?_, by decide⟩
  intro str d
  obtain ⟨ps, hrun, hpieces, hin, hjoin⟩ :=
    splitLoop_spec d (str.data.length + 1) str.data [] (Nat.lt_succ_self _)
  have hdata : (ps.map String.mk).map String.data = ps := by
    rw [List.map_map]
    have hid : String.data ∘ String.mk = id := funext (fun _ => rfl)
    rw [hid, List.map_id]
  refine ⟨ps.map String.mk, by simpa [split] using hrun, ?_, ?_, ?_⟩
  · intro p hp
    obtain ⟨q, hq, rfl⟩ := List.mem_map.1 hp
    exact hpieces q hq
  · rw [hdata]; exact hin
  · rw [hdata]; exact hjoin

end Utils

/-! ## Decimal numerals -/

namespace Utils

theorem isDigitC_iff (c : Char) : isDigitC c = true ↔ asciiDigit c := by
  have h1 : ('0' : Char).toNat = 48 := rfl
  have h2 : ('9' : Char).toNat = 57 := rfl
  simp only [isDigitC, asciiDigit, Bool.and_eq_true, decide_eq_true_eq, ge_iff_le,
    char_le_iff, h1, h2]

theorem isSpaceC_iff (c : Char) : isSpaceC c = true ↔ c ∈ cSpaces := by
  simp only [isSpaceC, cSpaces, Bool.or_eq_true, beq_iff_eq, List.mem_cons,
    List.mem_singleton, List.not_mem_nil, or_false, or_assoc]

theorem digit_facts (c : Char) (h : isDigitC c = true) :
    isSpaceC c = false ∧ c ≠ '-' ∧ c ≠ '+' ∧ c ≠ Char.ofNat 0 ∧
      c = digitChar (c.toNat - 48) ∧ c.toNat - 48 < 10 := by
  obtain ⟨h1, h2⟩ := (isDigitC_iff c).1 h
  obtain ⟨n, hn1, hn2, rfl⟩ := char_range_cases c 48 57 h1 h2
  interval_cases n <;> decide

theorem digitChar_facts (d : Nat) (h : d < 10) :
    isDigitC (digitChar d) = true ∧ (digitChar d).toNat - 48 = d := by
  interval_cases d <;> decide

theorem digitsValue_append_singleton (l : List Char) (c : Char) :
    digitsValue (l ++ [c]) = digitsValue l * 10 + (c.toNat - 48) := by
  simp [digitsValue, List.foldl_append]

theorem decimalDigits_digits (fuel : Nat) :
    ∀ n, ∀ c ∈ decimalDigits fuel n, isDigitC c = true := by
  induction fuel with
  | zero => intro n c hc; simp [decimalDigits] at hc
  | succ fuel ih =>
    intro n c hc
    by_cases h : n < 10
    · simp only [decimalDigits, h, if_true, List.mem_singleton] at hc
      rw [hc]; exact (digitChar_facts n h).1
    · simp only [decimalDigits, h, if_false, List.mem_append, List.mem_singleton] at hc
      rcases hc with hc | hc
      · exact ih _ c hc
      · rw [hc]; exact (digitChar_facts _ (Nat.mod_lt n (by decide))).1

theorem decimalDigits_ne_nil (fuel n : Nat) : decimalDigits (fuel + 1) n ≠ [] := by
  by_cases h : n < 10
  · simp [decimalDigits, h]
  · simp [decimalDigits, h]

theorem decimalDigits_value (fuel : Nat) :
    ∀ n, n < fuel → digitsValue (decimalDigits fuel n) = n := by
  induction fuel with
  | zero => intro n h; exact absurd h (Nat.not_lt_zero _)
  | succ fuel ih =>
    intro n hn
    by_cases h : n < 10
    · simp only [decimalDigits, h, if_true]
      have := digitsValue_append_singleton [] (digitChar n)
      simp only [List.nil_append] at this
      rw [this, (digitChar_facts n h).2]
      simp [digitsValue]
    · simp only [decimalDigits, h, if_false]
      rw [digitsValue_append_singleton, ih (n / 10) (by omega),
        (digitChar_facts _ (Nat.mod_lt n (by decide))).2]
      omega

theorem decimal_facts (n : Nat) :
    decimal n ≠ [] ∧ (∀ c ∈ decimal n, isDigitC c = true) ∧ digitsValue (decimal n) = n :=
  ⟨decimalDigits_ne_nil n n, decimalDigits_digits (n + 1) n,
    decimalDigits_value (n + 1) n (Nat.lt_succ_self n)⟩

end Utils
namespace Utils

theorem takeWhile_digits_append (digits rest : List Char)
    (hdig : ∀ c ∈ digits, isDigitC c = true)
    (hrest : ∀ c, rest.head? = some c → isDigitC c = false) :
    (digits ++ rest).takeWhile isDigitC = digits := by
  rw [List.takeWhile_append_of_pos hdig]
  cases rest with
  | nil => simp
  | cons r rs =>
    have hr : ¬ isDigitC r = true := by simp [hrest r rfl]
    rw [List.takeWhile_cons_of_neg hr, List.append_nil]

theorem skip_spaces (ws tail : List Char) (hws : ∀ c ∈ ws, isSpaceC c = true)
    (htail : ∀ c, tail.head? = some c → isSpaceC c = false) :
    (ws ++ tail).takeWhile isSpaceC = ws ∧ (ws ++ tail).dropWhile isSpaceC = tail := by
  rw [List.takeWhile_append_of_pos hws, List.dropWhile_append_of_pos hws]
  cases tail with
  | nil => simp
  | cons t ts =>
    have ht : ¬ isSpaceC t = true := by simp [htail t rfl]
    rw [List.takeWhile_cons_of_neg ht, List.dropWhile_cons_of_neg ht, List.append_nil]
    exact ⟨rfl, rfl⟩

theorem strtol10_of_parts (nptr ws s1 digits : List Char) (signLen : Nat)
    (h1 : nptr.takeWhile isSpaceC = ws) (h2 : nptr.dropWhile isSpaceC = s1)
    (h3 : (if s1.head? == some '-' || s1.head? == some '+' then 1 else 0) = signLen)
    (h4 : (s1.drop signLen).takeWhile isDigitC = digits) (hne : digits ≠ []) :
    strtol10 nptr =
      (if (if s1.head? == some '-' then -((digitsValue digits : Nat) : Int)
            else ((digitsValue digits : Nat) : Int)) > LONG_MAX then LONG_MAX
        else if (if s1.head? == some '-' then -((digitsValue digits : Nat) : Int)
            else ((digitsValue digits : Nat) : Int)) < LONG_MIN then LONG_MIN
        else (if s1.head? == some '-' then -((digitsValue digits : Nat) : Int)
            else ((digitsValue digits : Nat) : Int)),
       ws.length + signLen + digits.length) := by
  subst h1 h2 h3 h4
  have he : (List.takeWhile isDigitC
      (List.drop (if ((List.dropWhile isSpaceC nptr).head? == some '-' ||
        (List.dropWhile isSpaceC nptr).head? == some '+') = true then 1 else 0)
        (List.dropWhile isSpaceC nptr))).isEmpty = false := by
    rw [List.isEmpty_eq_false]
    exact hne
  simp only [strtol10, he, Bool.false_eq_true, if_false]

theorem strtol10_numeral (ws sign digits rest : List Char)
    (hws : ∀ c ∈ ws, isSpaceC c = true) (hsign : sign ∈ numeralSigns)
    (hdig : ∀ c ∈ digits, isDigitC c = true) (hne : digits ≠ [])
    (hrest : ∀ c, rest.head? = some c → isDigitC c = false) :
    strtol10 (ws ++ (sign ++ (digits ++ rest))) =
      (if numeralValue sign digits > LONG_MAX then LONG_MAX
        else if numeralValue sign digits < LONG_MIN then LONG_MIN
        else numeralValue sign digits,
       ws.length + sign.length + digits.length) := by
  obtain ⟨d0, dt, rfl⟩ := List.exists_cons_of_ne_nil hne
  have hd0 := digit_facts d0 (hdig d0 (by simp))
  have htw := takeWhile_digits_append (d0 :: dt) rest hdig hrest
  have hm : (some d0 == some '-') = false := by simpa using hd0.2.1
  have hp : (some d0 == some '+') = false := by simpa using hd0.2.2.1
  simp only [numeralSigns, List.mem_cons, List.mem_singleton, List.not_mem_nil,
    or_false] at hsign
  rcases hsign with rfl | rfl | rfl
  · obtain ⟨h1, h2⟩ := skip_spaces ws (d0 :: dt ++ rest) hws (by
      intro c hc
      simp only [List.cons_append, List.head?_cons, Option.some.injEq] at hc
      exact hc ▸ hd0.1)
    have h := strtol10_of_parts (ws ++ (d0 :: dt ++ rest)) ws (d0 :: dt ++ rest) (d0 :: dt) 0
      h1 h2 (by simp [hm, hp]) (by simpa using htw) hne
    simpa [numeralValue, hm] using h
  · obtain ⟨h1, h2⟩ := skip_spaces ws ('+' :: (d0 :: dt ++ rest)) hws (by
      intro c hc
      simp only [List.head?_cons, Option.some.injEq] at hc
      rw [← hc]; decide)
    have h := strtol10_of_parts (ws ++ '+' :: (d0 :: dt ++ rest)) ws ('+' :: (d0 :: dt ++ rest))
      (d0 :: dt) 1 h1 h2 (by simp) (by simpa using htw) hne
    simpa [numeralValue] using h
  · obtain ⟨h1, h2⟩ := skip_spaces ws ('-' :: (d0 :: dt ++ rest)) hws (by
      intro c hc
      simp only [List.head?_cons, Option.some.injEq] at hc
      rw [← hc]; decide)
    have h := strtol10_of_parts (ws ++ '-' :: (d0 :: dt ++ rest)) ws ('-' :: (d0 :: dt ++ rest))
      (d0 :: dt) 1 h1 h2 (by simp) (by simpa using htw) hne
    simpa [numeralValue] using h

end Utils
namespace Utils

theorem space_ne_nul (c : Char) (h : isSpaceC c = true) : c ≠ Char.ofNat 0 := by
  have hm := (isSpaceC_iff c).1 h
  simp only [cSpaces, List.mem_cons, List.mem_singleton, List.not_mem_nil, or_false] at hm
  rcases hm with rfl | rfl | rfl | rfl | rfl | rfl <;> decide

theorem cString_of_no_nul (s : String) (h : Char.ofNat 0 ∉ s.data) :
    (cString s).data = s.data := by
  show s.data.takeWhile (fun c => c != Char.ofNat 0) = s.data
  rw [List.takeWhile_eq_self_iff]
  intro c hc
  have : c ≠ Char.ofNat 0 := fun e => h (e ▸ hc)
  simpa using this

theorem numeral_no_nul (ws sign digits : List Char) (hws : ∀ c ∈ ws, isSpaceC c = true)
    (hsign : sign ∈ numeralSigns) (hdig : ∀ c ∈ digits, isDigitC c = true) :
    Char.ofNat 0 ∉ ws ++ (sign ++ digits) := by
  intro h
  simp only [List.mem_append] at h
  rcases h with h | h | h
  · exact space_ne_nul _ (hws _ h) rfl
  · simp only [numeralSigns, List.mem_cons, List.mem_singleton, List.not_mem_nil,
      or_false] at hsign
    rcases hsign with rfl | rfl | rfl
    · simp at h
    · exact absurd h (by decide)
    · exact absurd h (by decide)
  · exact (digit_facts _ (hdig _ h)).2.2.2.1 rfl

theorem stringToInt_numeral (s : String) (r : Int) (ws sign digits : List Char)
    (hs : s.data = ws ++ (sign ++ digits)) (hws : ∀ c ∈ ws, isSpaceC c = true)
    (hsign : sign ∈ numeralSigns) (hdig : ∀ c ∈ digits, isDigitC c = true)
    (hne : digits ≠ []) :
    stringToInt s r =
      if INT_MIN ≤ numeralValue sign digits ∧ numeralValue sign digits ≤ INT_MAX then
        (true, numeralValue sign digits)
      else (false, r) := by
  have hnul : Char.ofNat 0 ∉ s.data := hs ▸ numeral_no_nul ws sign digits hws hsign hdig
  have hc : (cString s).data = ws ++ (sign ++ (digits ++ [])) := by
    rw [cString_of_no_nul s hnul, hs, List.append_nil]
  have hempty : s.data.isEmpty = false := by
    rw [List.isEmpty_eq_false, hs]
    simp [hne]
  have hst := strtol10_numeral ws sign digits [] hws hsign hdig hne (by simp)
  have hlen : (ws ++ (sign ++ (digits ++ []))).length =
      ws.length + sign.length + digits.length := by
    simp [Nat.add_assoc]
  have hget : (ws ++ (sign ++ (digits ++ []))).getD
      (ws.length + sign.length + digits.length) (Char.ofNat 0) = Char.ofNat 0 := by
    rw [List.getD_eq_default]
    rw [hlen]
  simp only [stringToInt, hempty, Bool.false_eq_true, if_false, hc, hst, hget,
    bne_self_eq_false]
  generalize numeralValue sign digits = v
  simp only [INT_MAX, INT_MIN, LONG_MAX, LONG_MIN]
  by_cases h1 : v > 9223372036854775807
  · have h2 : ¬ (-2147483648 ≤ v ∧ v ≤ 2147483647) := by omega
    simp [h1, h2]
  · by_cases h3 : v < -9223372036854775808
    · have h2 : ¬ (-2147483648 ≤ v ∧ v ≤ 2147483647) := by omega
      simp [h1, h3, h2]
    · by_cases h4 : v > 2147483647
      · have h2 : ¬ (-2147483648 ≤ v ∧ v ≤ 2147483647) := by omega
        simp [h1, h3, h4, h2]
      · by_cases h5 : v < -2147483648
        · have h2 : ¬ (-2147483648 ≤ v ∧ v ≤ 2147483647) := by omega
          simp [h1, h3, h4, h5, h2]
        · have h2 : -2147483648 ≤ v ∧ v ≤ 2147483647 := by omega
          simp [h1, h3, h4, h5, h2]

end Utils
namespace Utils

theorem dropWhile_head_false (p : Char → Bool) (l : List Char) :
    ∀ c, (l.dropWhile p).head? = some c → p c = false := by
  induction l with
  | nil => intro c hc; simp at hc
  | cons x xs ih =>
    intro c hc
    cases hx : p x
    · rw [List.dropWhile_cons_of_neg (by simp [hx])] at hc
      simp only [List.head?_cons, Option.some.injEq] at hc
      exact hc ▸ hx
    · rw [List.dropWhile_cons_of_pos hx] at hc
      exact ih c hc

theorem strtol10_decomposition (l : List Char) :
    ∃ ws sign digits rest, l = ws ++ (sign ++ (digits ++ rest)) ∧
      (∀ c ∈ ws, isSpaceC c = true) ∧ sign ∈ numeralSigns ∧
      (∀ c ∈ digits, isDigitC c = true) ∧
      (∀ c, rest.head? = some c → isDigitC c = false) ∧
      (digits = [] → strtol10 l = (0, 0)) := by
  have hws : ∀ c ∈ l.takeWhile isSpaceC, isSpaceC c = true :=
    fun c hc => List.mem_takeWhile_imp hc
  have hl1 : l = l.takeWhile isSpaceC ++ l.dropWhile isSpaceC :=
    (List.takeWhile_append_dropWhile _ _).symm
  generalize hs1 : l.dropWhile isSpaceC = s1 at hl1
  have hparts : ∃ sign s2, s1 = sign ++ s2 ∧ sign ∈ numeralSigns ∧
      s2 = s1.drop (if s1.head? == some '-' || s1.head? == some '+' then 1 else 0) := by
    cases s1 with
    | nil => exact ⟨[], [], rfl, by simp [numeralSigns], by simp⟩
    | cons x xs =>
      by_cases hm : x = '-'
      · subst hm
        exact ⟨['-'], xs, rfl, by simp [numeralSigns], by simp⟩
      · by_cases hp : x = '+'
        · subst hp
          exact ⟨['+'], xs, rfl, by simp [numeralSigns], by simp⟩
        · exact ⟨[], x :: xs, rfl, by simp [numeralSigns], by simp [hm, hp]⟩
  obtain ⟨sign, s2, hs1s, hsign, hs2⟩ := hparts
  have hdig : ∀ c ∈ s2.takeWhile isDigitC, isDigitC c = true :=
    fun c hc => List.mem_takeWhile_imp hc
  have hl2 : s2 = s2.takeWhile isDigitC ++ s2.dropWhile isDigitC :=
    (List.takeWhile_append_dropWhile _ _).symm
  refine ⟨l.takeWhile isSpaceC, sign, s2.takeWhile isDigitC, s2.dropWhile isDigitC, ?_, hws,
    hsign, hdig, dropWhile_head_false isDigitC s2, ?_⟩
  · rw [← hl2, ← hs1s]; exact hl1
  · intro hnil
    rw [hs2] at hnil
    simp only [strtol10, hs1, hnil, List.isEmpty_nil, if_true]

theorem stringToInt_unchanged (s : String) (r : Int)
    (h : (stringToInt s r).1 = false) : (stringToInt s r).2 = r := by
  unfold stringToInt at h ⊢
  generalize strtol10 (cString s).data = p at h ⊢
  obtain ⟨value, endPtr⟩ := p
  simp only at h ⊢
  split_ifs at h ⊢ <;> simp_all

theorem stringToInt_accepts (s : String) (r : Int) (hnul : Char.ofNat 0 ∉ s.data)
    (h : (stringToInt s r).1 = true) :
    ∃ ws sign digits, s.data = ws ++ (sign ++ digits) ∧
      (∀ c ∈ ws, isSpaceC c = true) ∧ sign ∈ numeralSigns ∧ digits ≠ [] ∧
      (∀ c ∈ digits, isDigitC c = true) ∧
      INT_MIN ≤ numeralValue sign digits ∧ numeralValue sign digits ≤ INT_MAX ∧
      (stringToInt s r).2 = numeralValue sign digits := by
  have hne : s.data ≠ [] := by
    intro he
    simp [stringToInt, he] at h
  have hempty : s.data.isEmpty = false := List.isEmpty_eq_false.2 hne
  have hc := cString_of_no_nul s hnul
  obtain ⟨ws, sign, digits, rest, hl, hws, hsign, hdig, hrest, hzero⟩ :=
    strtol10_decomposition s.data
  have hget : ∀ i, i < s.data.length → s.data.getD i (Char.ofNat 0) ≠ Char.ofNat 0 := by
    intro i hi he
    rw [List.getD_eq_getElem _ _ hi] at he
    exact hnul (he ▸ List.getElem_mem hi)
  by_cases hd : digits = []
  · exfalso
    have h0 := hget 0 (List.length_pos.2 hne)
    have hb : (s.data.getD 0 (Char.ofNat 0) != Char.ofNat 0) = true := by simpa using h0
    simp only [stringToInt, hempty, Bool.false_eq_true, if_false, hc, hzero hd, hb,
      if_true] at h
  · have hst := strtol10_numeral ws sign digits rest hws hsign hdig hd hrest
    rw [← hl] at hst
    have hrnil : rest = [] := by
      by_contra hr
      have hlt : ws.length + sign.length + digits.length < s.data.length := by
        have hlen := congrArg List.length hl
        simp only [List.length_append] at hlen
        have : 0 < rest.length := List.length_pos.2 hr
        omega
      have hb : (s.data.getD (ws.length + sign.length + digits.length) (Char.ofNat 0)
          != Char.ofNat 0) = true := by simpa using hget _ hlt
      simp only [stringToInt, hempty, Bool.false_eq_true, if_false, hc, hst, hb,
        if_true] at h
    subst hrnil
    have hs : s.data = ws ++ (sign ++ digits) := by simpa using hl
    have hnum := stringToInt_numeral s r ws sign digits hs hws hsign hdig hd
    by_cases hrange : INT_MIN ≤ numeralValue sign digits ∧ numeralValue sign digits ≤ INT_MAX
    · rw [if_pos hrange] at hnum
      exact ⟨ws, sign, digits, hs, hws, hsign, hd, hdig, hrange.1, hrange.2, by rw [hnum]⟩
    · rw [if_neg hrange] at hnum
      rw [hnum] at h
      exact absurd h (by simp)

end Utils
namespace Utils

/-- C21 (as stated, refuted): " 42" contains a space, which is not part of an
optional sign followed by digits, and yet `stringToInt` returns true and sets
the result to 42. -/
theorem stringToInt_space_counterexample :
    stringToInt " 42" 7 = (true, 42) ∧ ' ' ∈ (" 42").data ∧
      ¬ (∃ sign digits, (" 42").data = sign ++ digits ∧ sign ∈ numeralSigns ∧
          ∀ c ∈ digits, asciiDigit c) := by
  refine ⟨by decide, by decide, ?_⟩
  rintro ⟨sign, digits, hs, hsign, hdig⟩
  have hdata : (" 42").data = [' ', '4', '2'] := rfl
  rw [hdata] at hs
  simp only [numeralSigns, List.mem_cons, List.mem_singleton, List.not_mem_nil,
    or_false] at hsign
  rcases hsign with rfl | rfl | rfl
  · have hd : digits = [' ', '4', '2'] := by simpa using hs.symm
    have h := hdig ' ' (by rw [hd]; simp)
    exact absurd h.1 (by decide)
  · simp at hs
  · simp at hs

/-- C21 (amended): `stringToInt(s, result)` returns false when `s` is empty,
and whenever it returns false `result` is unchanged. When `s` is optional
leading white space (what `strtol` skips), an optional sign and one or more
decimal digits, it returns true and sets `result` to the value denoted if that
value lies in [INT_MIN, INT_MAX], and returns false otherwise. A string without
NUL byte for which it returns true has that form, with its value in range. -/
theorem stringToInt_spec (s : String) (r : Int) :
    (s.data = [] → stringToInt s r = (false, r)) ∧
    ((stringToInt s r).1 = false → (stringToInt s r).2 = r) ∧
    (∀ ws sign digits : List Char, s.data = ws ++ (sign ++ digits) →
      (∀ c ∈ ws, c ∈ cSpaces) → sign ∈ numeralSigns → digits ≠ [] →
      (∀ c ∈ digits, asciiDigit c) →
      stringToInt s r =
        if INT_MIN ≤ numeralValue sign digits ∧ numeralValue sign digits ≤ INT_MAX then
          (true, numeralValue sign digits)
        else (false, r)) ∧
    (Char.ofNat 0 ∉ s.data → (stringToInt s r).1 = true →
      ∃ ws sign digits : List Char, s.data = ws ++ (sign ++ digits) ∧
        (∀ c ∈ ws, c ∈ cSpaces) ∧ sign ∈ numeralSigns ∧ digits ≠ [] ∧
        (∀ c ∈ digits, asciiDigit c) ∧
        INT_MIN ≤ numeralValue sign digits ∧ numeralValue sign digits ≤ INT_MAX ∧
        (stringToInt s r).2 = numeralValue sign digits) := by
  refine ⟨?_, stringToInt_unchanged s r, ?_, ?_⟩
  · intro he
    simp [stringToInt, he]
  · intro ws sign digits hs hws hsign hne hdig
    exact stringToInt_numeral s r ws sign digits hs
      (fun c hc => (isSpaceC_iff c).2 (hws c hc)) hsign
      (fun c hc => (isDigitC_iff c).2 (hdig c hc)) hne
  · intro hnul h
    obtain ⟨ws, sign, digits, hs, hws, hsign, hne, hdig, hlo, hhi, hv⟩ :=
      stringToInt_accepts s r hnul h
    exact ⟨ws, sign, digits, hs, fun c hc => (isSpaceC_iff c).1 (hws c hc), hsign, hne,
      fun c hc => (isDigitC_iff c).1 (hdig c hc), hlo, hhi, hv⟩

end Utils
namespace Utils

theorem intToString_data (n : Int) :
    (intToString n).data =
      [] ++ ((if n < 0 then ['-'] else []) ++ decimal n.natAbs) := by
  by_cases h : n < 0
  · simp [intToString, streamInt, h]
  · simp [intToString, streamInt, h]

/-- C24: for every `int` `n`, from `INT_MIN` to `INT_MAX`,
`stringToInt(intToString(n), r)` returns true and sets `r` to `n`. -/
theorem int_string_round_trip (n r : Int) (hlo : INT_MIN ≤ n) (hhi : n ≤ INT_MAX) :
    stringToInt (intToString n) r = (true, n) := by
  obtain ⟨hne, hdig, hval⟩ := decimal_facts n.natAbs
  have hsign : (if n < 0 then ['-'] else []) ∈ numeralSigns := by
    by_cases h : n < 0 <;> simp [h, numeralSigns]
  have hv : numeralValue (if n < 0 then ['-'] else []) (decimal n.natAbs) = n := by
    by_cases h : n < 0
    · simp only [h, if_true, numeralValue, hval]
      omega
    · have hnil : (([] : List Char) = ['-']) = False := by simp
      simp only [h, if_false, numeralValue, hval, hnil]
      omega
  rw [stringToInt_numeral (intToString n) r [] (if n < 0 then ['-'] else [])
    (decimal n.natAbs) (intToString_data n) (by simp) hsign hdig hne, hv]
  simp [hlo, hhi]

/-- Witness for C24: the smallest `int`. -/
theorem int_string_round_trip_witness :
    INT_MIN ≤ -2147483648 ∧ (-2147483648 : Int) ≤ INT_MAX ∧
      intToString (-2147483648) = "-2147483648" ∧
      stringToInt "-2147483648" 7 = (true, -2147483648) :=
  ⟨by decide, by decide, by decide, by
    have h := int_string_round_trip (-2147483648) 7 (by decide) (by decide)
    have e : intToString (-2147483648) = "-2147483648" := by decide
    rw [e] at h
    exact h⟩

end Utils

end FtIrc
